import Mathlib

/-!
Shallow embedding of the event-pipeline core of `src/main.py` of the
physics-events-rss-scraper repository, together with proofs of the
specification claims about it.

Strings are modelled as Lean `String` / `List Char`.  The Python `re`
operations the code uses are modelled by direct recursive scanners with the
leftmost / greedy / lazy semantics of the concrete patterns in question;
each scanner documents the pattern it implements.  Python's `\s` is
modelled on the ASCII range (the feed text is ASCII).
-/

namespace RssScraper

/-- Python regex `\s` / `str.strip()` whitespace, ASCII range: space, tab,
newline, carriage return, vertical tab, form feed. -/
def pyWs (c : Char) : Bool :=
  c.toNat = 32 || c.toNat = 9 || c.toNat = 10 ||
  c.toNat = 13 || c.toNat = 11 || c.toNat = 12

/-- The characters the `sanitize_filename` character class `[<>:\\"/\\|?*]`
matches: `< > : \ " / | ? *`. -/
def illegalChar (c : Char) : Bool :=
  c == '<' || c == '>' || c == ':' || c == '\\' || c == '"' ||
  c == '/' || c == '|' || c == '?' || c == '*'

/-- One left-to-right pass of `re.sub(r'[\s\-]+', ' ', s)`: every maximal
run of whitespace/hyphen characters becomes a single space.  The flag
records whether the previous character belonged to such a run (so the
current run's space has already been emitted). -/
def collapseAux : Bool → List Char → List Char
  | _, [] => []
  | false, c :: rest =>
    if pyWs c || c == '-' then ' ' :: collapseAux true rest
    else c :: collapseAux false rest
  | true, c :: rest =>
    if pyWs c || c == '-' then collapseAux true rest
    else c :: collapseAux false rest

/-- Remove trailing characters satisfying `p` (Python `str.rstrip`). -/
def rstripIf (p : Char → Bool) (l : List Char) : List Char :=
  (l.reverse.dropWhile p).reverse

/-- Python `str.strip()`. -/
def pyStrip (l : List Char) : List Char :=
  rstripIf pyWs (l.dropWhile pyWs)

/-- `sanitize_filename` before the final truncation: replace the illegal
characters with `-`, collapse whitespace/hyphen runs to single spaces and
strip (the `.replace(' ', ' ')` in the source is a no-op), then strip
trailing spaces and dots. -/
def sanitizeNoTrunc (name : String) : List Char :=
  let safe := name.data.map (fun c => if illegalChar c then '-' else c)
  let safe := pyStrip (collapseAux false safe)
  rstripIf (fun c => c == ' ' || c == '.') safe

/-- `sanitize_filename(name, max_length)` of `src/main.py`: the sanitized
name truncated to `maxLength` characters. -/
def sanitize_filename (name : String) (maxLength : Nat) : String :=
  String.mk ((sanitizeNoTrunc name).take maxLength)

/-! ### Helper lemmas for `sanitize_filename` -/

theorem mem_collapseAux {c : Char} :
    ∀ (b : Bool) (l : List Char), c ∈ collapseAux b l → c = ' ' ∨ c ∈ l := by
  intro b l
  induction l generalizing b with
  | nil => intro h; cases b <;> simp [collapseAux] at h
  | cons a rest ih =>
    intro h
    cases b with
    | false =>
      simp only [collapseAux] at h
      split at h
      · rcases List.mem_cons.mp h with h1 | h1
        · exact Or.inl h1
        · rcases ih true h1 with h2 | h2
          · exact Or.inl h2
          · exact Or.inr (List.mem_cons_of_mem _ h2)
      · rcases List.mem_cons.mp h with h1 | h1
        · exact Or.inr (List.mem_cons.mpr (Or.inl h1))
        · rcases ih false h1 with h2 | h2
          · exact Or.inl h2
          · exact Or.inr (List.mem_cons_of_mem _ h2)
    | true =>
      simp only [collapseAux] at h
      split at h
      · rcases ih true h with h2 | h2
        · exact Or.inl h2
        · exact Or.inr (List.mem_cons_of_mem _ h2)
      · rcases List.mem_cons.mp h with h1 | h1
        · exact Or.inr (List.mem_cons.mpr (Or.inl h1))
        · rcases ih false h1 with h2 | h2
          · exact Or.inl h2
          · exact Or.inr (List.mem_cons_of_mem _ h2)

theorem mem_rstripIf {c : Char} {p : Char → Bool} {l : List Char}
    (h : c ∈ rstripIf p l) : c ∈ l := by
  have h1 : c ∈ l.reverse.dropWhile p := by
    simpa [rstripIf] using h
  have h2 := List.dropWhile_sublist (p := p) (l := l.reverse)
  exact List.mem_reverse.mp (h2.subset h1)

theorem mem_pyStrip {c : Char} {l : List Char} (h : c ∈ pyStrip l) : c ∈ l := by
  have h1 : c ∈ l.dropWhile pyWs := mem_rstripIf h
  exact (List.dropWhile_sublist (p := pyWs) (l := l)).subset h1

/-- The head of `dropWhile p` never satisfies `p`. -/
theorem head_dropWhile_false (p : α → Bool) :
    ∀ (l : List α) (c : α), c ∈ (l.dropWhile p).head? → p c = false := by
  intro l
  induction l with
  | nil => intro c h; simp [List.dropWhile] at h
  | cons a rest ih =>
    intro c h
    by_cases ha : p a = true
    · rw [List.dropWhile_cons_of_pos ha] at h
      exact ih c h
    · rw [List.dropWhile_cons_of_neg ha] at h
      simp only [List.head?_cons, Option.mem_def, Option.some.injEq] at h
      rw [← h]
      exact Bool.eq_false_iff.mpr ha

/-- The last element of an `rstripIf p` result never satisfies `p`. -/
theorem getLast?_rstripIf (p : Char → Bool) (l : List Char) (c : Char)
    (h : c ∈ (rstripIf p l).getLast?) : p c = false := by
  have h1 : c ∈ (l.reverse.dropWhile p).head? := by
    simpa [rstripIf, List.getLast?_reverse] using h
  exact head_dropWhile_false p l.reverse c h1

/-- C3, part refuted: the claim promises the result never ends in a space or
a dot, but truncation can cut the string right after a dot.
`sanitize_filename "a. b" 2` is `"a."`. -/
theorem sanitize_filename_trailing_dot_cex :
    sanitize_filename "a. b" 2 = "a." ∧ ("a.".data.getLast? = some '.') :=
  ⟨rfl, rfl⟩

/-- C3, amended: the result of `sanitize_filename` is never longer than
`maxLength` and never contains one of the characters `< > : " / \ | ? *`;
and whenever no truncation happens (the sanitized string already fits in
`maxLength` characters) it does not end in a space or a dot. -/
theorem sanitize_filename_spec (name : String) (maxLength : Nat) :
    (sanitize_filename name maxLength).length ≤ maxLength ∧
    (∀ c ∈ (sanitize_filename name maxLength).data, illegalChar c = false) ∧
    ((sanitizeNoTrunc name).length ≤ maxLength →
      ∀ c ∈ (sanitize_filename name maxLength).data.getLast?,
        (c == ' ' || c == '.') = false) := by
  refine ⟨?_, ?_, ?_⟩
  · simp [sanitize_filename, String.length]
  · intro c hc
    simp only [sanitize_filename] at hc
    have hc1 : c ∈ sanitizeNoTrunc name := (List.take_sublist _ _).subset hc
    have hc2 : c ∈ pyStrip (collapseAux false
        (name.data.map (fun c => if illegalChar c then '-' else c))) :=
      mem_rstripIf hc1
    have hc3 := mem_pyStrip hc2
    rcases mem_collapseAux false _ hc3 with h | h
    · subst h; rfl
    · rcases List.mem_map.mp h with ⟨a, _, ha⟩
      by_cases hia : illegalChar a = true
      · simp only [hia, if_pos] at ha
        subst ha; rfl
      · simp only [hia, Bool.false_eq_true, if_neg] at ha
        subst ha
        exact Bool.eq_false_iff.mpr hia
  · intro hlen c hc
    have heq : (sanitizeNoTrunc name).take maxLength = sanitizeNoTrunc name :=
      List.take_of_length_le hlen
    simp only [sanitize_filename, heq] at hc
    exact getLast?_rstripIf _ _ c hc

/-! ### `clean_html_description` (markup stripping)

`clean_html_description` performs
`re.sub(r'<!\[CDATA\[(.*?)\]\]>', r'\1', s, flags=re.DOTALL)` (each CDATA
wrapper replaced by its body, body = lazily up to the first `]]>`), then
`re.sub(r'<[^>]+>', '', s)` (every leftmost tag match removed), then
`str.strip()`.  The two substitutions are modelled by left-to-right
scanners; a fuel argument (initialised to the text length, which the scan
never exceeds since every step consumes at least one character) makes them
structurally recursive. -/

/-- Scan to just past the first `>` of the list. -/
def afterGt : List Char → Option (List Char)
  | [] => none
  | c :: r => if c = '>' then some r else afterGt r

/-- Match `[^>]+>` at the front of the list (what must follow the `<` of a
tag in `re.sub(r'<[^>]+>', '', s)`): at least one non-`>` character, then
everything up to and including the first `>`.  Returns the text after the
match, or `none` when the pattern cannot match here. -/
def dropTag : List Char → Option (List Char)
  | [] => none
  | c :: r => if c = '>' then none else afterGt r

/-- One pass of `re.sub(r'<[^>]+>', '', s)`: at each position, if a tag
match starts here consume it, otherwise keep the character and move on. -/
def tagSubF : Nat → List Char → List Char
  | _, [] => []
  | 0, l => l
  | fuel + 1, c :: rest =>
    if c = '<' then
      match dropTag rest with
      | some after => tagSubF fuel after
      | none => c :: tagSubF fuel rest
    else c :: tagSubF fuel rest

def tagSub (l : List Char) : List Char := tagSubF l.length l

def cdataOpen : List Char := ['<', '!', '[', 'C', 'D', 'A', 'T', 'A', '[']

def cdataClose : List Char := [']', ']', '>']

/-- The lazy `(.*?)\]\]>` tail of a CDATA match: the body up to the first
`]]>`, and the text after that `]]>`. -/
def findClose : List Char → Option (List Char × List Char)
  | [] => none
  | c :: r =>
    if cdataClose.isPrefixOf (c :: r) then some ([], (c :: r).drop 3)
    else
      match findClose r with
      | some (b2, a) => some (c :: b2, a)
      | none => none

/-- One pass of `re.sub(r'<!\[CDATA\[(.*?)\]\]>', r'\1', s, flags=re.DOTALL)`:
at each position, if `<![CDATA[` occurs here and `]]>` occurs later, emit
the lazy body and continue after the `]]>`. -/
def cdataSubF : Nat → List Char → List Char
  | _, [] => []
  | 0, l => l
  | fuel + 1, c :: rest =>
    if cdataOpen.isPrefixOf (c :: rest) then
      match findClose ((c :: rest).drop 9) with
      | some (body, after) => body ++ cdataSubF fuel after
      | none => c :: cdataSubF fuel rest
    else c :: cdataSubF fuel rest

def cdataSub (l : List Char) : List Char := cdataSubF l.length l

/-- `clean_html_description` of `src/main.py`. -/
def clean_html_description (description : String) : String :=
  String.mk (pyStrip (tagSub (cdataSub description.data)))

/-- The text contains a match of the pattern `<[^>]+>`. -/
def HasTag (l : List Char) : Prop :=
  ∃ a w b, l = a ++ '<' :: (w ++ '>' :: b) ∧ w ≠ [] ∧ '>' ∉ w

/-- The text contains a match of the pattern `<!\[CDATA\[(.*?)\]\]>`. -/
def HasCdata (l : List Char) : Prop :=
  ∃ a body b, l = a ++ cdataOpen ++ body ++ cdataClose ++ b

theorem hasTag_cons {l : List Char} {c : Char} (h : HasTag l) : HasTag (c :: l) := by
  obtain ⟨a, w, b, hl, hw, hmem⟩ := h
  exact ⟨c :: a, w, b, by rw [hl]; rfl, hw, hmem⟩

theorem hasCdata_cons {l : List Char} {c : Char} (h : HasCdata l) :
    HasCdata (c :: l) := by
  obtain ⟨a, body, b, hl⟩ := h
  exact ⟨c :: a, body, b, by rw [hl]; rfl⟩

theorem hasTag_within {l u m v : List Char} (hl : l = u ++ m ++ v)
    (h : HasTag m) : HasTag l := by
  obtain ⟨a, w, b, hm, hw, hmem⟩ := h
  refine ⟨u ++ a, w, b ++ v, ?_, hw, hmem⟩
  subst hl hm
  simp

/-- If the text looks like `a ++ '<' :: c0 :: m ++ '>' :: b` with `c0 ≠ '>'`,
then a `<[^>]+>` match exists in it (ending at the first `>` after the `<`). -/
theorem hasTag_intro {l a m b : List Char} {z : Char} (hc : z ≠ '>')
    (hl : l = a ++ '<' :: z :: (m ++ '>' :: b)) : HasTag l := by
  by_cases hmem : '>' ∈ z :: m
  · have hsplit := List.takeWhile_append_dropWhile
      (p := fun x => decide (x ≠ '>')) (l := z :: m)
    set w := (z :: m).takeWhile (fun x => decide (x ≠ '>')) with hw
    set d := (z :: m).dropWhile (fun x => decide (x ≠ '>')) with hd
    have hdne : d ≠ [] := by
      intro hnil
      rw [hnil, List.append_nil] at hsplit
      have : ∀ x ∈ z :: m, x ≠ '>' := by
        intro x hx
        rw [← hsplit] at hx
        have := List.mem_takeWhile_imp hx
        simpa using this
      exact (this '>' hmem) rfl
    obtain ⟨d0, d2, hd2⟩ := List.exists_cons_of_ne_nil hdne
    have hd0 : d0 = '>' := by
      have := head_dropWhile_false (fun x => decide (x ≠ '>')) (z :: m) d0
      have h0 : d0 ∈ ((z :: m).dropWhile fun x => decide (x ≠ '>')).head? := by
        rw [← hd, hd2]; rfl
      have h1 := this h0
      simp at h1
      exact h1
    have hwne : w ≠ [] := by
      rw [hw]
      rw [List.takeWhile_cons_of_pos (by simpa using hc)]
      exact List.cons_ne_nil _ _
    have hwmem : '>' ∉ w := by
      intro hx
      have hgt := List.mem_takeWhile_imp hx
      simp at hgt
    refine ⟨a, w, d2 ++ '>' :: b, ?_, hwne, hwmem⟩
    rw [hl]
    have : z :: m = w ++ '>' :: d2 := by rw [← hd0, ← hd2]; exact hsplit.symm
    rw [show '<' :: z :: (m ++ '>' :: b) = '<' :: ((z :: m) ++ '>' :: b) from rfl]
    rw [this]
    simp
  · exact ⟨a, z :: m, b, by rw [hl]; rfl, List.cons_ne_nil _ _, hmem⟩

theorem hasTag_of_hasCdata {l : List Char} (h : HasCdata l) : HasTag l := by
  obtain ⟨a, body, b, hl⟩ := h
  refine hasTag_intro (z := '!') (a := a)
    (m := ['[', 'C', 'D', 'A', 'T', 'A', '['] ++ body ++ [']', ']']) (b := b)
    (by decide) ?_
  rw [hl]
  simp [cdataOpen, cdataClose]

theorem afterGt_some : ∀ {l r : List Char}, afterGt l = some r →
    ∃ w, l = w ++ '>' :: r ∧ '>' ∉ w := by
  intro l
  induction l with
  | nil => intro r h; simp [afterGt] at h
  | cons c t ih =>
    intro r h
    by_cases hc : c = '>'
    · subst hc
      rw [afterGt, if_pos rfl] at h
      exact ⟨[], by rw [Option.some.injEq] at h; rw [h]; rfl, by simp⟩
    · rw [afterGt, if_neg hc] at h
      obtain ⟨w, hw, hmem⟩ := ih h
      refine ⟨c :: w, by rw [hw]; rfl, ?_⟩
      simp only [List.mem_cons, not_or]
      exact ⟨fun hcc => hc hcc.symm, hmem⟩

theorem afterGt_none : ∀ {l : List Char}, afterGt l = none → '>' ∉ l := by
  intro l
  induction l with
  | nil => intro _ h; simp at h
  | cons c t ih =>
    intro h
    by_cases hc : c = '>'
    · subst hc; simp [afterGt] at h
    · rw [afterGt, if_neg hc] at h
      simp only [List.mem_cons, not_or]
      exact ⟨fun hcc => hc hcc.symm, ih h⟩

theorem dropTag_some {l r : List Char} (h : dropTag l = some r) :
    ∃ w, l = w ++ '>' :: r ∧ w ≠ [] ∧ '>' ∉ w := by
  cases l with
  | nil => simp [dropTag] at h
  | cons c t =>
    by_cases hc : c = '>'
    · rw [dropTag, if_pos hc] at h; exact absurd h (by simp)
    · rw [dropTag, if_neg hc] at h
      obtain ⟨w, hw, hmem⟩ := afterGt_some h
      refine ⟨c :: w, by rw [hw]; rfl, List.cons_ne_nil _ _, ?_⟩
      simp only [List.mem_cons, not_or]
      exact ⟨fun hcc => hc hcc.symm, hmem⟩

theorem dropTag_some_length {l r : List Char} (h : dropTag l = some r) :
    r.length < l.length := by
  obtain ⟨w, hw, hne, _⟩ := dropTag_some h
  rw [hw]
  simp only [List.length_append, List.length_cons]
  omega

theorem dropTag_none {l : List Char} (h : dropTag l = none) :
    l = [] ∨ (∃ t, l = '>' :: t) ∨ '>' ∉ l := by
  cases l with
  | nil => exact Or.inl rfl
  | cons c t =>
    by_cases hc : c = '>'
    · exact Or.inr (Or.inl ⟨t, by rw [hc]⟩)
    · rw [dropTag, if_neg hc] at h
      refine Or.inr (Or.inr ?_)
      simp only [List.mem_cons, not_or]
      exact ⟨fun hcc => hc hcc.symm, afterGt_none h⟩

theorem tagSubF_sublist : ∀ (fuel : Nat) (l : List Char),
    List.Sublist (tagSubF fuel l) l := by
  intro fuel
  induction fuel with
  | zero =>
    intro l
    cases l with
    | nil => simp [tagSubF]
    | cons c t => exact List.Sublist.refl _
  | succ f ih =>
    intro l
    cases l with
    | nil => simp [tagSubF]
    | cons c t =>
      by_cases hc : c = '<'
      · subst hc
        rw [tagSubF, if_pos rfl]
        cases hd : dropTag t with
        | some after =>
          show List.Sublist (tagSubF f after) ('<' :: t)
          obtain ⟨w, hw, _, _⟩ := dropTag_some hd
          have h1 : List.Sublist after t := by
            rw [hw]
            refine List.Sublist.trans ?_ (List.sublist_append_right w ('>' :: after))
            exact List.sublist_cons_self _ _
          exact List.Sublist.trans (List.Sublist.trans (ih after) h1)
            (List.sublist_cons_self _ _)
        | none =>
          show List.Sublist ('<' :: tagSubF f t) ('<' :: t)
          exact List.Sublist.cons₂ _ (ih t)
      · rw [tagSubF, if_neg hc]
        exact List.Sublist.cons₂ _ (ih t)

/-- The output of the tag-removal pass contains no `<[^>]+>` match: every
surviving `<` is either immediately followed by `>` or has no later `>`. -/
theorem tagSubF_noTag : ∀ (fuel : Nat) (l : List Char), l.length ≤ fuel →
    ¬ HasTag (tagSubF fuel l) := by
  intro fuel
  induction fuel with
  | zero =>
    intro l hl
    have : l = [] := List.length_eq_zero.mp (Nat.le_zero.mp hl)
    subst this
    intro h
    obtain ⟨a, w, b, heq, _, _⟩ := h
    rw [show tagSubF 0 ([] : List Char) = [] from rfl] at heq
    exact absurd heq.symm (by simp)
  | succ f ih =>
    intro l hl
    cases l with
    | nil =>
      intro h
      obtain ⟨a, w, b, heq, _, _⟩ := h
      rw [show tagSubF (f + 1) ([] : List Char) = [] from rfl] at heq
      exact absurd heq.symm (by simp)
    | cons c t =>
      have ht : t.length ≤ f := by
        simp only [List.length_cons] at hl; omega
      by_cases hc : c = '<'
      · subst hc
        rw [tagSubF, if_pos rfl]
        cases hd : dropTag t with
        | some after =>
          show ¬ HasTag (tagSubF f after)
          have hlen : after.length ≤ f :=
            Nat.le_of_lt (Nat.lt_of_lt_of_le (dropTag_some_length hd) ht)
          exact ih after hlen
        | none =>
          show ¬ HasTag ('<' :: tagSubF f t)
          intro h
          obtain ⟨a, w, b, heq, hwne, hwmem⟩ := h
          cases a with
          | nil =>
            simp only [List.nil_append, List.cons.injEq] at heq
            have hT := heq.2
            rcases dropTag_none hd with h0 | ⟨t2, h0⟩ | h0
            · subst h0
              rw [show tagSubF f ([] : List Char) = [] by simp [tagSubF]] at hT
              exact absurd hT.symm (by simp [hwne])
            · subst h0
              have hf : ∃ f2, f = f2 + 1 := by
                cases f with
                | zero => simp at ht
                | succ f2 => exact ⟨f2, rfl⟩
              obtain ⟨f2, rfl⟩ := hf
              rw [tagSubF, if_neg (by decide : ¬('>' : Char) = '<')] at hT
              cases w with
              | nil => exact hwne rfl
              | cons w0 w2 =>
                have hw0 : '>' = w0 := by
                  simpa using congrArg List.head? hT
                exact hwmem (hw0.symm ▸ List.mem_cons_self w0 w2)
            · have hmem : '>' ∈ tagSubF f t := by
                rw [hT]
                exact List.mem_append_right w (List.mem_cons_self _ _)
              exact h0 ((tagSubF_sublist f t).subset hmem)
          | cons a0 a2 =>
            simp only [List.cons_append, List.cons.injEq] at heq
            exact ih t ht ⟨a2, w, b, heq.2, hwne, hwmem⟩
      · rw [tagSubF, if_neg hc]
        intro h
        obtain ⟨a, w, b, heq, hwne, hwmem⟩ := h
        cases a with
        | nil =>
          simp only [List.nil_append, List.cons.injEq] at heq
          exact hc heq.1
        | cons a0 a2 =>
          simp only [List.cons_append, List.cons.injEq] at heq
          exact ih t ht ⟨a2, w, b, heq.2, hwne, hwmem⟩

/-- Text with no `<[^>]+>` match is left unchanged by the tag pass. -/
theorem tagSubF_fix : ∀ (fuel : Nat) (l : List Char), ¬ HasTag l →
    tagSubF fuel l = l := by
  intro fuel
  induction fuel with
  | zero =>
    intro l _
    cases l with
    | nil => rfl
    | cons c t => rfl
  | succ f ih =>
    intro l hl
    cases l with
    | nil => rfl
    | cons c t =>
      have ht : ¬ HasTag t := fun h => hl (hasTag_cons h)
      by_cases hc : c = '<'
      · subst hc
        rw [tagSubF, if_pos rfl]
        cases hd : dropTag t with
        | some after =>
          obtain ⟨w, hw, hwne, hwmem⟩ := dropTag_some hd
          exact absurd ⟨[], w, after, by rw [hw]; rfl, hwne, hwmem⟩ hl
        | none =>
          show '<' :: tagSubF f t = '<' :: t
          rw [ih t ht]
      · rw [tagSubF, if_neg hc, ih t ht]

theorem tagSub_noTag (l : List Char) : ¬ HasTag (tagSub l) :=
  tagSubF_noTag l.length l (Nat.le_refl _)

theorem tagSub_fix {l : List Char} (h : ¬ HasTag l) : tagSub l = l :=
  tagSubF_fix l.length l h

theorem isPrefixOf_decomp {p l : List Char} (h : p.isPrefixOf l = true) :
    l = p ++ l.drop p.length := by
  obtain ⟨t, ht⟩ := List.isPrefixOf_iff_prefix.mp h
  rw [← ht, List.drop_left]

theorem findClose_some : ∀ {l b a : List Char}, findClose l = some (b, a) →
    l = b ++ cdataClose ++ a := by
  intro l
  induction l with
  | nil => intro b a h; simp [findClose] at h
  | cons c r ih =>
    intro b a h
    by_cases hp : cdataClose.isPrefixOf (c :: r) = true
    · rw [findClose, if_pos hp] at h
      rw [Option.some.injEq, Prod.mk.injEq] at h
      obtain ⟨hb, ha⟩ := h
      have hd := isPrefixOf_decomp hp
      rw [show cdataClose.length = 3 from rfl] at hd
      rw [← hb, ← ha, List.nil_append]
      exact hd
    · rw [findClose, if_neg hp] at h
      cases hf : findClose r with
      | none => rw [hf] at h; exact Option.noConfusion h
      | some pair =>
        obtain ⟨b2, a2⟩ := pair
        rw [hf, Option.some.injEq, Prod.mk.injEq] at h
        obtain ⟨hb, ha⟩ := h
        rw [← hb, ← ha]
        rw [show (c :: b2) ++ cdataClose ++ a2 = c :: (b2 ++ cdataClose ++ a2) from rfl]
        rw [← ih hf]

/-- Text with no `<![CDATA[...]]>` match is left unchanged by the CDATA pass. -/
theorem cdataSubF_fix : ∀ (fuel : Nat) (l : List Char), ¬ HasCdata l →
    cdataSubF fuel l = l := by
  intro fuel
  induction fuel with
  | zero =>
    intro l _
    cases l with
    | nil => rfl
    | cons c t => rfl
  | succ f ih =>
    intro l hl
    cases l with
    | nil => rfl
    | cons c t =>
      have ht : ¬ HasCdata t := fun h => hl (hasCdata_cons h)
      by_cases hp : cdataOpen.isPrefixOf (c :: t) = true
      · rw [cdataSubF, if_pos hp]
        cases hf : findClose ((c :: t).drop 9) with
        | some pair =>
          obtain ⟨body, after⟩ := pair
          have hdec := isPrefixOf_decomp hp
          rw [show cdataOpen.length = 9 from rfl] at hdec
          have hcl := findClose_some hf
          refine absurd ⟨[], body, after, ?_⟩ hl
          rw [List.nil_append, hdec, hcl]
          simp
        | none =>
          show c :: cdataSubF f t = c :: t
          rw [ih t ht]
      · rw [cdataSubF, if_neg hp, ih t ht]

theorem cdataSub_fix {l : List Char} (h : ¬ HasCdata l) : cdataSub l = l :=
  cdataSubF_fix l.length l h

/-! ### `str.strip` lemmas -/

theorem dropWhile_idem (p : Char → Bool) (l : List Char) :
    (l.dropWhile p).dropWhile p = l.dropWhile p := by
  cases h : l.dropWhile p with
  | nil => rfl
  | cons c t =>
    have hc : p c = false := head_dropWhile_false p l c (by rw [h]; rfl)
    rw [List.dropWhile_cons_of_neg (by simp [hc])]

theorem rstripIf_append (p : Char → Bool) (l : List Char) :
    ∃ v, l = rstripIf p l ++ v := by
  refine ⟨(l.reverse.takeWhile p).reverse, ?_⟩
  rw [rstripIf, ← List.reverse_append, List.takeWhile_append_dropWhile,
    List.reverse_reverse]

theorem pyStrip_decomp (l : List Char) : ∃ u v, l = u ++ pyStrip l ++ v := by
  obtain ⟨v, hv⟩ := rstripIf_append pyWs (l.dropWhile pyWs)
  refine ⟨l.takeWhile pyWs, v, ?_⟩
  conv_lhs => rw [← List.takeWhile_append_dropWhile (p := pyWs) (l := l), hv]
  rw [pyStrip, List.append_assoc]

theorem pyStrip_idem (l : List Char) : pyStrip (pyStrip l) = pyStrip l := by
  obtain ⟨v, hv⟩ := rstripIf_append pyWs (l.dropWhile pyWs)
  have hdrop : (pyStrip l).dropWhile pyWs = pyStrip l := by
    cases hs : pyStrip l with
    | nil => rfl
    | cons c t =>
      have hc : pyWs c = false := by
        refine head_dropWhile_false pyWs l c ?_
        rw [show pyStrip l = rstripIf pyWs (l.dropWhile pyWs) from rfl] at hs
        rw [hv, hs]
        rfl
      rw [List.dropWhile_cons_of_neg (by simp [hc])]
  have hrev : (pyStrip l).reverse = (l.dropWhile pyWs).reverse.dropWhile pyWs := by
    rw [pyStrip, rstripIf, List.reverse_reverse]
  conv_lhs => rw [pyStrip, hdrop, rstripIf, hrev, dropWhile_idem]
  rw [pyStrip, rstripIf]

/-! ### `titlecase` (C7) -/

/-- Python `str.capitalize()` on ASCII text: first character upper-cased,
the rest lower-cased. -/
def pyCapitalize : List Char → List Char
  | [] => []
  | c :: r => c.toUpper :: r.map Char.toLower

/-- Python `str.lower()` on ASCII text. -/
def pyLower (l : List Char) : List Char := l.map Char.toLower

/-- Python `str.split()` with no separator: split on whitespace runs,
dropping empty pieces; `cur` holds the current word reversed. -/
def splitWsAux : List Char → List Char → List (List Char)
  | cur, [] => if cur = [] then [] else [cur.reverse]
  | cur, c :: r =>
    if pyWs c then
      if cur = [] then splitWsAux [] r else cur.reverse :: splitWsAux [] r
    else splitWsAux (c :: cur) r

def splitWsL (l : List Char) : List (List Char) := splitWsAux [] l

/-- `' '.join(ws)`. -/
def joinSpace : List (List Char) → List Char
  | [] => []
  | [w] => w
  | w :: ws => w ++ ' ' :: joinSpace ws

/-- The `small_words` set of `titlecase` in `src/main.py`. -/
def small_words : List (List Char) :=
  ["a", "an", "and", "as", "at", "but", "by", "for", "if", "in", "into",
   "is", "it", "nor", "of", "on", "or", "such", "that", "the", "to", "up",
   "with"].map String.data

/-- The per-word rule of the `titlecase` loop over `n` words: the word at
index 0 or `n - 1` is always capitalized; any other word is capitalized
unless its lower-casing is a small word, in which case it is lower-cased. -/
def titlecaseWord (n : Nat) (iw : Nat × List Char) : List Char :=
  if iw.1 = 0 ∨ iw.1 = n - 1 then pyCapitalize iw.2
  else if small_words.contains (pyLower iw.2) = false then pyCapitalize iw.2
  else pyLower iw.2

/-- `titlecase` of `src/main.py`: split into whitespace-separated words,
apply the per-word rule, join with single spaces. -/
def titlecase (text : String) : String :=
  let words := splitWsL text.data
  String.mk (joinSpace (words.enum.map (titlecaseWord words.length)))

theorem splitWsAux_wf : ∀ (l cur : List Char), (∀ c ∈ cur, pyWs c = false) →
    ∀ w ∈ splitWsAux cur l, w ≠ [] ∧ ∀ c ∈ w, pyWs c = false := by
  intro l
  induction l with
  | nil =>
    intro cur hcur w hw
    by_cases hc : cur = []
    · rw [splitWsAux, if_pos hc] at hw
      simp at hw
    · rw [splitWsAux, if_neg hc] at hw
      rw [List.mem_singleton] at hw
      subst hw
      refine ⟨by simpa using hc, ?_⟩
      intro c hcm
      exact hcur c (List.mem_reverse.mp hcm)
  | cons c r ih =>
    intro cur hcur w hw
    by_cases hc : pyWs c = true
    · rw [splitWsAux, if_pos hc] at hw
      by_cases hcn : cur = []
      · rw [if_pos hcn] at hw
        exact ih [] (by simp) w hw
      · rw [if_neg hcn] at hw
        rcases List.mem_cons.mp hw with h1 | h1
        · subst h1
          refine ⟨by simpa using hcn, ?_⟩
          intro c2 hcm
          exact hcur c2 (List.mem_reverse.mp hcm)
        · exact ih [] (by simp) w h1
    · rw [splitWsAux, if_neg hc] at hw
      refine ih (c :: cur) ?_ w hw
      intro c2 hc2
      rcases List.mem_cons.mp hc2 with h1 | h1
      · subst h1; exact Bool.eq_false_iff.mpr hc
      · exact hcur c2 h1

theorem splitWsAux_word : ∀ (w r cur : List Char), (∀ c ∈ w, pyWs c = false) →
    splitWsAux cur (w ++ r) = splitWsAux (w.reverse ++ cur) r := by
  intro w
  induction w with
  | nil => intro r cur _; simp
  | cons c w2 ih =>
    intro r cur hw
    have hc : pyWs c = false := hw c (List.mem_cons_self _ _)
    rw [List.cons_append, splitWsAux, if_neg (by simp [hc])]
    rw [ih r (c :: cur) (fun c2 h2 => hw c2 (List.mem_cons_of_mem _ h2))]
    congr 1
    simp

theorem splitWsL_joinSpace : ∀ (ws : List (List Char)),
    (∀ w ∈ ws, w ≠ [] ∧ ∀ c ∈ w, pyWs c = false) →
    splitWsL (joinSpace ws) = ws := by
  intro ws
  induction ws with
  | nil => intro _; rfl
  | cons w ws2 ih =>
    intro hwf
    obtain ⟨hwne, hwch⟩ := hwf w (List.mem_cons_self _ _)
    cases ws2 with
    | nil =>
      show splitWsAux [] (joinSpace [w]) = [w]
      rw [show joinSpace [w] = w from rfl]
      rw [show splitWsAux [] w = splitWsAux [] (w ++ []) by rw [List.append_nil]]
      rw [splitWsAux_word w [] [] hwch, List.append_nil, splitWsAux,
        if_neg (by simpa using hwne)]
      rw [List.reverse_reverse]
    | cons w2 ws3 =>
      show splitWsAux [] (joinSpace (w :: w2 :: ws3)) = w :: w2 :: ws3
      rw [show joinSpace (w :: w2 :: ws3) = w ++ ' ' :: joinSpace (w2 :: ws3)
        from rfl]
      rw [splitWsAux_word w (' ' :: joinSpace (w2 :: ws3)) [] hwch]
      rw [List.append_nil, splitWsAux, if_pos (by rfl)]
      rw [if_neg (by simpa using hwne), List.reverse_reverse]
      rw [show splitWsAux [] (joinSpace (w2 :: ws3)) =
        splitWsL (joinSpace (w2 :: ws3)) from rfl]
      rw [ih (fun x hx => hwf x (List.mem_cons_of_mem _ hx))]

theorem toNat_ofNat_small {n : Nat} (h : n < 55296) : (Char.ofNat n).toNat = n := by
  rw [Char.ofNat, dif_pos (Or.inl h)]
  rfl

theorem toLower_eq (c : Char) :
    c.toLower = if 65 ≤ c.toNat ∧ c.toNat ≤ 90 then Char.ofNat (c.toNat + 32)
      else c := rfl

theorem toUpper_eq (c : Char) :
    c.toUpper = if 97 ≤ c.toNat ∧ c.toNat ≤ 122 then Char.ofNat (c.toNat - 32)
      else c := rfl

theorem pyWs_toLower {c : Char} (h : pyWs c = false) : pyWs c.toLower = false := by
  rw [toLower_eq]
  by_cases hr : 65 ≤ c.toNat ∧ c.toNat ≤ 90
  · rw [if_pos hr]
    have h32 : (Char.ofNat (c.toNat + 32)).toNat = c.toNat + 32 :=
      toNat_ofNat_small (by omega)
    simp only [pyWs, h32, Bool.or_eq_false_iff, decide_eq_false_iff_not]
    omega
  · rw [if_neg hr]; exact h

theorem pyWs_toUpper {c : Char} (h : pyWs c = false) : pyWs c.toUpper = false := by
  rw [toUpper_eq]
  by_cases hr : 97 ≤ c.toNat ∧ c.toNat ≤ 122
  · rw [if_pos hr]
    have h32 : (Char.ofNat (c.toNat - 32)).toNat = c.toNat - 32 :=
      toNat_ofNat_small (by omega)
    simp only [pyWs, h32, Bool.or_eq_false_iff, decide_eq_false_iff_not]
    omega
  · rw [if_neg hr]; exact h

theorem pyCapitalize_wf {w : List Char} (hne : w ≠ [])
    (hch : ∀ c ∈ w, pyWs c = false) :
    pyCapitalize w ≠ [] ∧ ∀ c ∈ pyCapitalize w, pyWs c = false := by
  cases w with
  | nil => exact absurd rfl hne
  | cons c r =>
    refine ⟨by simp [pyCapitalize], ?_⟩
    intro c2 hc2
    rw [pyCapitalize] at hc2
    rcases List.mem_cons.mp hc2 with h1 | h1
    · subst h1
      exact pyWs_toUpper (hch c (List.mem_cons_self _ _))
    · obtain ⟨a, ha, rfl⟩ := List.mem_map.mp h1
      exact pyWs_toLower (hch a (List.mem_cons_of_mem _ ha))

theorem pyLower_wf {w : List Char} (hne : w ≠ [])
    (hch : ∀ c ∈ w, pyWs c = false) :
    pyLower w ≠ [] ∧ ∀ c ∈ pyLower w, pyWs c = false := by
  refine ⟨by simpa [pyLower] using hne, ?_⟩
  intro c2 hc2
  obtain ⟨a, ha, rfl⟩ := List.mem_map.mp hc2
  exact pyWs_toLower (hch a ha)

theorem titlecaseWord_wf {n : Nat} {iw : Nat × List Char} (hne : iw.2 ≠ [])
    (hch : ∀ c ∈ iw.2, pyWs c = false) :
    titlecaseWord n iw ≠ [] ∧ ∀ c ∈ titlecaseWord n iw, pyWs c = false := by
  rw [titlecaseWord]
  split
  · exact pyCapitalize_wf hne hch
  · split
    · exact pyCapitalize_wf hne hch
    · exact pyLower_wf hne hch

/-- C7: the words of `titlecase t` are exactly the words of `t` transformed
by the per-word rule (first and last always capitalized, middle small words
lower-cased, everything else capitalized); empty and single-word inputs
work; the spec's example holds. -/
theorem titlecase_spec :
    (∀ t : String, splitWsL (titlecase t).data =
      (splitWsL t.data).enum.map (titlecaseWord (splitWsL t.data).length)) ∧
    titlecase "" = "" ∧
    titlecase "x" = "X" ∧
    titlecase "the study of quantum fields" = "The Study of Quantum Fields" := by
  refine ⟨?_, rfl, rfl, rfl⟩
  intro t
  show splitWsL (joinSpace ((splitWsL t.data).enum.map
    (titlecaseWord (splitWsL t.data).length))) =
    (splitWsL t.data).enum.map (titlecaseWord (splitWsL t.data).length)
  refine splitWsL_joinSpace _ ?_
  intro w hw
  obtain ⟨iw, hiw, rfl⟩ := List.mem_map.mp hw
  have hsnd : iw.2 ∈ splitWsL t.data := by
    obtain ⟨i, x, rfl⟩ : ∃ i x, iw = (i, x) := ⟨iw.1, iw.2, rfl⟩
    have := List.mk_mem_enum_iff_getElem?.mp hiw
    exact List.getElem?_mem this
  obtain ⟨hne, hch⟩ := splitWsAux_wf t.data [] (by simp) iw.2 hsnd
  exact titlecaseWord_wf hne hch

/-! ### C4: idempotence of `clean_html_description` -/

/-- C4: for every text, applying `clean_html_description` (CDATA unwrapping,
then angle-bracket tag removal, then trimming) twice yields the same result
as applying it once. -/
theorem clean_html_description_idem (t : String) :
    clean_html_description (clean_html_description t) = clean_html_description t := by
  have hnos : ¬ HasTag (pyStrip (tagSub (cdataSub t.data))) := by
    intro h
    obtain ⟨u, v, huv⟩ := pyStrip_decomp (tagSub (cdataSub t.data))
    exact tagSub_noTag (cdataSub t.data) (hasTag_within huv h)
  have hnocd : ¬ HasCdata (pyStrip (tagSub (cdataSub t.data))) :=
    fun h => hnos (hasTag_of_hasCdata h)
  show String.mk (pyStrip (tagSub (cdataSub (pyStrip (tagSub (cdataSub t.data)))))) =
    clean_html_description t
  rw [cdataSub_fix hnocd, tagSub_fix hnos, pyStrip_idem]
  rfl

/-! ### Datetimes

`parse_iso_datetime` wraps `datetime.fromisoformat`.  The parser is
modelled on the ISO-8601 subset the feeds and the code exercise:
`YYYY-MM-DD[THH:MM[:SS[.f{1-6}]][±HH:MM]]`, with the field validation
`fromisoformat` performs; a string without an offset parses to a *naive*
datetime (offset `none`), exactly as in Python. -/

/-- A Python `datetime` as produced by `datetime.fromisoformat`: calendar
fields plus an optional UTC offset in minutes (`none` = offset-naive). -/
structure PyDateTime where
  year : Nat
  month : Nat
  day : Nat
  hour : Nat
  minute : Nat
  second : Nat
  microsecond : Nat
  tzOffsetMinutes : Option Int
deriving DecidableEq, Repr

def digitVal (c : Char) : Option Nat :=
  if 48 ≤ c.toNat ∧ c.toNat ≤ 57 then some (c.toNat - 48) else none

def digits2 : List Char → Option (Nat × List Char)
  | c1 :: c2 :: r =>
    match digitVal c1, digitVal c2 with
    | some d1, some d2 => some (d1 * 10 + d2, r)
    | _, _ => none
  | _ => none

def digits4 (l : List Char) : Option (Nat × List Char) :=
  match digits2 l with
  | some (a, r) =>
    match digits2 r with
    | some (b, r2) => some (a * 100 + b, r2)
    | none => none
  | none => none

def takeDigits : List Char → List Nat × List Char
  | [] => ([], [])
  | c :: r =>
    match digitVal c with
    | some d =>
      let p := takeDigits r
      (d :: p.1, p.2)
    | none => ([], c :: r)

/-- Microseconds from 1-6 fractional digits (padded on the right). -/
def usOfDigits (ds : List Nat) : Nat :=
  (ds ++ List.replicate (6 - ds.length) 0).foldl (fun a d => a * 10 + d) 0

def isLeap (y : Nat) : Bool := (y % 4 = 0 ∧ y % 100 ≠ 0) ∨ y % 400 = 0

def daysInMonth (y m : Nat) : Nat :=
  if m = 2 then (if isLeap y then 29 else 28)
  else if m = 4 ∨ m = 6 ∨ m = 9 ∨ m = 11 then 30
  else 31

/-- A `±HH:MM` UTC offset, in minutes; must consume the whole rest. -/
def parseOffset : List Char → Option Int
  | sign :: r =>
    if sign = '+' ∨ sign = '-' then
      match digits2 r with
      | some (hh, ':' :: r2) =>
        match digits2 r2 with
        | some (mm, []) =>
          if hh ≤ 23 ∧ mm ≤ 59 then
            some (if sign = '-' then -((hh : Int) * 60 + mm)
              else (hh : Int) * 60 + mm)
          else none
        | _ => none
      | _ => none
    else none
  | [] => none

def finishDT (y mo d hh mi ss us : Nat) : List Char → Option PyDateTime
  | [] =>
    if hh ≤ 23 ∧ mi ≤ 59 ∧ ss ≤ 59 then
      some ⟨y, mo, d, hh, mi, ss, us, none⟩
    else none
  | rest =>
    match parseOffset rest with
    | some off =>
      if hh ≤ 23 ∧ mi ≤ 59 ∧ ss ≤ 59 then
        some ⟨y, mo, d, hh, mi, ss, us, some off⟩
      else none
    | none => none

def parseSecFrac (y mo d hh mi : Nat) (r : List Char) : Option PyDateTime :=
  match digits2 r with
  | none => none
  | some (ss, r1) =>
    match r1 with
    | '.' :: r2 =>
      let p := takeDigits r2
      if 1 ≤ p.1.length ∧ p.1.length ≤ 6 then
        finishDT y mo d hh mi ss (usOfDigits p.1) p.2
      else none
    | _ => finishDT y mo d hh mi ss 0 r1

def parseTimePart (y mo d : Nat) (r : List Char) : Option PyDateTime :=
  match digits2 r with
  | none => none
  | some (hh, r1) =>
    match r1 with
    | ':' :: r2 =>
      match digits2 r2 with
      | none => none
      | some (mi, r3) =>
        match r3 with
        | ':' :: r4 => parseSecFrac y mo d hh mi r4
        | _ => finishDT y mo d hh mi 0 0 r3
    | _ => none

/-- `datetime.fromisoformat` on the subset described above. -/
def fromisoformatChars (l : List Char) : Option PyDateTime :=
  match digits4 l with
  | none => none
  | some (y, r1) =>
    match r1 with
    | '-' :: r2 =>
      match digits2 r2 with
      | none => none
      | some (mo, r3) =>
        match r3 with
        | '-' :: r4 =>
          match digits2 r4 with
          | none => none
          | some (d, r5) =>
            if 1 ≤ y ∧ 1 ≤ mo ∧ mo ≤ 12 ∧ 1 ≤ d ∧ d ≤ daysInMonth y mo then
              match r5 with
              | [] => finishDT y mo d 0 0 0 0 []
              | 'T' :: r6 => parseTimePart y mo d r6
              | _ => none
            else none
        | _ => none
    | _ => none

/-- `parse_iso_datetime` of `src/main.py`: replace a trailing `Z` by
`+00:00`, then `datetime.fromisoformat`, `None` on failure. -/
def parse_iso_datetime (s : String) : Option PyDateTime :=
  let l :=
    match s.data.getLast? with
    | some 'Z' => s.data.dropLast ++ "+00:00".data
    | _ => s.data
  fromisoformatChars l

/-- Days from 1970-01-01 of a civil date (standard era-based algorithm,
restricted to years ≥ 1). -/
def daysFromCivil (y m d : Nat) : Int :=
  let yAdj : Nat := if m ≤ 2 then y - 1 else y
  let era : Nat := yAdj / 400
  let yoe : Nat := yAdj - era * 400
  let mp : Nat := if 2 < m then m - 3 else m + 9
  let doy : Nat := (153 * mp + 2) / 5 + d - 1
  let doe : Nat := yoe * 365 + yoe / 4 - yoe / 100 + doy
  (era * 146097 + doe : Int) - 719468

/-- The UTC instant of an offset-aware datetime, in microseconds since the
epoch; `none` for a naive one (Python refuses to compare naive with
aware, and comparison of aware datetimes compares exactly these
instants). -/
def toInstant? (dt : PyDateTime) : Option Int :=
  dt.tzOffsetMinutes.map fun off =>
    ((daysFromCivil dt.year dt.month dt.day * 86400 +
      ((dt.hour * 3600 + dt.minute * 60 + dt.second : Nat) : Int) -
      off * 60) * 1000000 + (dt.microsecond : Int))

/-! ### `format_time_range` (C8) -/

def pad2 (n : Nat) : List Char :=
  if n < 10 then ['0', Char.ofNat (48 + n)] else Nat.toDigits 10 n

/-- `dt.strftime('%I:%M %p')`: zero-padded 12-hour clock, then AM/PM. -/
def strftimeIMp (dt : PyDateTime) : List Char :=
  let h12 : Nat := if dt.hour % 12 = 0 then 12 else dt.hour % 12
  pad2 h12 ++ ':' :: pad2 dt.minute ++ ' ' ::
    (if dt.hour < 12 then ['A', 'M'] else ['P', 'M'])

/-- `dt.strftime('%I:%M %p').lstrip('0')`. -/
def fmtTime (dt : PyDateTime) : List Char :=
  (strftimeIMp dt).dropWhile (fun c => c == '0')

/-- The fields of the event dict that the filtering, deduplication,
sorting and time-formatting logic of `src/main.py` reads. -/
structure Event where
  guid : String
  startdate : String
  enddate : String
deriving DecidableEq, Repr

/-- `format_time_range` of `src/main.py`. -/
def format_time_range (event : Event) : String :=
  match parse_iso_datetime event.startdate with
  | none => ""
  | some sd =>
    match parse_iso_datetime event.enddate with
    | none => String.mk (fmtTime sd)
    | some ed => String.mk (fmtTime sd ++ '-' :: fmtTime ed)

theorem fmtTime_head (dt : PyDateTime) :
    (fmtTime dt).head? ≠ some '0' ∧ fmtTime dt ≠ [] := by
  have key : ∀ (h12 : Nat), 1 ≤ h12 → h12 ≤ 12 → ∀ tail : List Char,
      ((pad2 h12 ++ tail).dropWhile (fun c => c == '0')).head? ≠ some '0' ∧
      (pad2 h12 ++ tail).dropWhile (fun c => c == '0') ≠ [] := by
    intro h12 h1 h2 tail
    by_cases hlt : h12 < 10
    · rw [pad2, if_pos hlt]
      have htn : (Char.ofNat (48 + h12)).toNat = 48 + h12 :=
        toNat_ofNat_small (by omega)
      have hne : ¬ (Char.ofNat (48 + h12) = '0') := by
        intro heq
        have h48 : 48 + h12 = Char.toNat '0' := by rw [← heq, htn]
        rw [show Char.toNat '0' = 48 from rfl] at h48
        omega
      rw [List.cons_append, List.cons_append,
        List.dropWhile_cons_of_pos (by simp),
        List.dropWhile_cons_of_neg (by simp [hne])]
      refine ⟨?_, by simp⟩
      rw [List.head?_cons]
      intro hcontra
      exact hne (Option.some.inj hcontra)
    · have hstep : ∀ (d : Char) (t2 : List Char),
          (('1' :: d :: t2).dropWhile (fun c => c == '0')).head? ≠ some '0' ∧
          ('1' :: d :: t2).dropWhile (fun c => c == '0') ≠ [] := by
        intro d t2
        rw [List.dropWhile_cons_of_neg (by decide)]
        refine ⟨?_, by simp⟩
        rw [List.head?_cons]
        decide
      have h3 : h12 = 10 ∨ h12 = 11 ∨ h12 = 12 := by omega
      rcases h3 with rfl | rfl | rfl
      · rw [show pad2 10 = ['1', '0'] from rfl]
        exact hstep '0' tail
      · rw [show pad2 11 = ['1', '1'] from rfl]
        exact hstep '1' tail
      · rw [show pad2 12 = ['1', '2'] from rfl]
        exact hstep '2' tail
  have hm : dt.hour % 12 < 12 := Nat.mod_lt _ (by omega)
  have hgoal : fmtTime dt =
      ((pad2 (if dt.hour % 12 = 0 then 12 else dt.hour % 12) ++
        (':' :: pad2 dt.minute)) ++
        (' ' :: (if dt.hour < 12 then ['A', 'M'] else ['P', 'M']))).dropWhile
        (fun c => c == '0') := rfl
  rw [hgoal, List.append_assoc]
  have hb : 1 ≤ (if dt.hour % 12 = 0 then 12 else dt.hour % 12) ∧
      (if dt.hour % 12 = 0 then 12 else dt.hour % 12) ≤ 12 := by
    by_cases h0 : dt.hour % 12 = 0
    · rw [if_pos h0]; omega
    · rw [if_neg h0]; omega
  exact key _ hb.1 hb.2 _

/-- C8: `format_time_range` returns `""` when the start does not parse;
otherwise it formats the start as `H:MM AM/PM` with no leading zero on the
hour, appending `-H:MM AM/PM` for the end exactly when the end parses;
the spec's examples hold. -/
theorem format_time_range_spec :
    (∀ e : Event, parse_iso_datetime e.startdate = none →
      format_time_range e = "") ∧
    (∀ (e : Event) (sd : PyDateTime), parse_iso_datetime e.startdate = some sd →
      parse_iso_datetime e.enddate = none →
      format_time_range e = String.mk (fmtTime sd)) ∧
    (∀ (e : Event) (sd ed : PyDateTime), parse_iso_datetime e.startdate = some sd →
      parse_iso_datetime e.enddate = some ed →
      format_time_range e = String.mk (fmtTime sd ++ '-' :: fmtTime ed)) ∧
    (∀ dt : PyDateTime, (fmtTime dt).head? ≠ some '0' ∧ fmtTime dt ≠ []) ∧
    format_time_range ⟨"", "2025-03-04T12:00:00+00:00", "2025-03-04T13:00:00+00:00"⟩ =
      "12:00 PM-1:00 PM" ∧
    format_time_range ⟨"", "2025-03-04T12:00:00+00:00", ""⟩ = "12:00 PM" ∧
    format_time_range ⟨"", "", "2025-03-04T13:00:00+00:00"⟩ = "" := by
  refine ⟨?_, ?_, ?_, fmtTime_head, rfl, rfl, rfl⟩
  · intro e h
    rw [format_time_range, h]
  · intro e sd h1 h2
    rw [format_time_range, h1, h2]
  · intro e sd ed h1 h2
    rw [format_time_range, h1, h2]

/-! ### Date filtering and deduplication (C1, C2)

`generate_html_output` (src/main.py lines 261-273) runs one loop over the
events: keep a record iff its `startdate` parses and
`start_date <= event_date <= end_date` (both window bounds come from
`parse_date_input` and are always offset-aware UTC datetimes, so the
window is modelled by its two instants), and its non-empty guid was not
kept before.  Comparing an offset-naive parsed date with the aware bound
raises `TypeError` in Python, modelled as `Except.error`. -/

/-- The test `event_date and start_date <= event_date <= end_date`. -/
def inWindowE (ws we : Int) (e : Event) : Except Unit Bool :=
  match parse_iso_datetime e.startdate with
  | none => .ok false
  | some dt =>
    match toInstant? dt with
    | none => .error ()
    | some t => .ok (decide (ws ≤ t ∧ t ≤ we))

/-- The date-filter component of the loop: the records whose `startdate`
parses and lies in the inclusive window, in input order. -/
def dateFilterE (ws we : Int) : List Event → Except Unit (List Event)
  | [] => .ok []
  | e :: rest =>
    match inWindowE ws we e with
    | .error u => .error u
    | .ok true =>
      match dateFilterE ws we rest with
      | .error u => .error u
      | .ok l => .ok (e :: l)
    | .ok false => dateFilterE ws we rest

/-- The guid-deduplication component of the loop: `seen` is the set of
already-kept non-empty guids. -/
def dedupeByGuid : List Event → List String → List Event
  | [], _ => []
  | e :: rest, seen =>
    if e.guid ≠ "" ∧ e.guid ∈ seen then dedupeByGuid rest seen
    else if e.guid ≠ "" then e :: dedupeByGuid rest (e.guid :: seen)
    else e :: dedupeByGuid rest seen

/-- The fused filter-and-dedupe loop of `generate_html_output`. -/
def filteredEventsE (ws we : Int) : List Event → List String → Except Unit (List Event)
  | [], _ => .ok []
  | e :: rest, seen =>
    match inWindowE ws we e with
    | .error u => .error u
    | .ok false => filteredEventsE ws we rest seen
    | .ok true =>
      if e.guid ≠ "" ∧ e.guid ∈ seen then filteredEventsE ws we rest seen
      else if e.guid ≠ "" then
        match filteredEventsE ws we rest (e.guid :: seen) with
        | .error u => .error u
        | .ok l => .ok (e :: l)
      else
        match filteredEventsE ws we rest seen with
        | .error u => .error u
        | .ok l => .ok (e :: l)

/-- Pure in-window test, for records whose comparison does not raise. -/
def inWindowB (ws we : Int) (e : Event) : Bool :=
  match parse_iso_datetime e.startdate with
  | none => false
  | some dt =>
    match toInstant? dt with
    | none => false
    | some t => decide (ws ≤ t ∧ t ≤ we)

/-- A record whose `startdate` either fails to parse or parses with an
explicit offset (so that the window comparison cannot raise). -/
def awareOk (e : Event) : Bool :=
  match parse_iso_datetime e.startdate with
  | none => true
  | some dt => (toInstant? dt).isSome

theorem dedupeByGuid_cons (e : Event) (rest : List Event) (seen : List String) :
    dedupeByGuid (e :: rest) seen =
      if e.guid ≠ "" ∧ e.guid ∈ seen then dedupeByGuid rest seen
      else if e.guid ≠ "" then e :: dedupeByGuid rest (e.guid :: seen)
      else e :: dedupeByGuid rest seen := rfl

theorem inWindowB_iff {ws we : Int} {e : Event} :
    inWindowB ws we e = true ↔
    ∃ dt t, parse_iso_datetime e.startdate = some dt ∧ toInstant? dt = some t ∧
      ws ≤ t ∧ t ≤ we := by
  rw [inWindowB]
  cases hp : parse_iso_datetime e.startdate with
  | none => simp
  | some dt =>
    show (match toInstant? dt with
      | none => false
      | some t => decide (ws ≤ t ∧ t ≤ we)) = true ↔ _
    cases ht : toInstant? dt with
    | none => simp [ht]
    | some t => simp [ht]

theorem inWindowE_of_awareOk {ws we : Int} {e : Event} (h : awareOk e = true) :
    inWindowE ws we e = .ok (inWindowB ws we e) := by
  rw [awareOk] at h
  rw [inWindowE, inWindowB]
  cases hp : parse_iso_datetime e.startdate with
  | none => rfl
  | some dt =>
    rw [hp] at h
    show (match toInstant? dt with
      | none => Except.error ()
      | some t => Except.ok (decide (ws ≤ t ∧ t ≤ we))) =
      Except.ok (match toInstant? dt with
      | none => false
      | some t => decide (ws ≤ t ∧ t ≤ we))
    cases ht : toInstant? dt with
    | none =>
      rw [show ((match some dt with
        | none => true
        | some dt => (toInstant? dt).isSome) = true) =
        ((toInstant? dt).isSome = true) from rfl, ht] at h
      simp at h
    | some t => rfl

/-- The fused loop is the date filter followed by guid deduplication. -/
theorem filteredEventsE_eq : ∀ (ws we : Int) (evs : List Event) (seen : List String),
    filteredEventsE ws we evs seen =
      match dateFilterE ws we evs with
      | .error u => .error u
      | .ok wl => .ok (dedupeByGuid wl seen) := by
  intro ws we evs
  induction evs with
  | nil => intro seen; rfl
  | cons e rest ih =>
    intro seen
    rw [filteredEventsE, dateFilterE]
    cases hw : inWindowE ws we e with
    | error u => rfl
    | ok b =>
      cases b with
      | false =>
        show filteredEventsE ws we rest seen = _
        rw [ih seen]
      | true =>
        show (if e.guid ≠ "" ∧ e.guid ∈ seen then filteredEventsE ws we rest seen
          else if e.guid ≠ "" then
            match filteredEventsE ws we rest (e.guid :: seen) with
            | .error u => .error u
            | .ok l => .ok (e :: l)
          else
            match filteredEventsE ws we rest seen with
            | .error u => .error u
            | .ok l => .ok (e :: l)) = _
        by_cases h1 : e.guid ≠ "" ∧ e.guid ∈ seen
        · rw [if_pos h1, ih seen]
          cases hd : dateFilterE ws we rest with
          | error u => rfl
          | ok wl =>
            show Except.ok (dedupeByGuid wl seen) =
              Except.ok (dedupeByGuid (e :: wl) seen)
            rw [dedupeByGuid_cons, if_pos h1]
        · rw [if_neg h1]
          by_cases h2 : e.guid ≠ ""
          · rw [if_pos h2, ih (e.guid :: seen)]
            cases hd : dateFilterE ws we rest with
            | error u => rfl
            | ok wl =>
              show Except.ok (e :: dedupeByGuid wl (e.guid :: seen)) =
                Except.ok (dedupeByGuid (e :: wl) seen)
              rw [dedupeByGuid_cons, if_neg h1, if_pos h2]
          · rw [if_neg h2, ih seen]
            cases hd : dateFilterE ws we rest with
            | error u => rfl
            | ok wl =>
              show Except.ok (e :: dedupeByGuid wl seen) =
                Except.ok (dedupeByGuid (e :: wl) seen)
              rw [dedupeByGuid_cons, if_neg h1, if_neg h2]

/-- C1, amended: when every record's `startdate` is unparsable or parses
with an explicit offset, the date filter returns (without error) exactly
the records whose `startdate` parses to an instant inside the inclusive
window; unparsable records are silently excluded. -/
theorem dateFilterE_spec (ws we : Int) (evs : List Event)
    (h : ∀ e ∈ evs, awareOk e = true) :
    dateFilterE ws we evs = .ok (evs.filter (inWindowB ws we)) ∧
    (∀ e, e ∈ evs.filter (inWindowB ws we) ↔ e ∈ evs ∧
      ∃ dt t, parse_iso_datetime e.startdate = some dt ∧ toInstant? dt = some t ∧
        ws ≤ t ∧ t ≤ we) := by
  constructor
  · induction evs with
    | nil => rfl
    | cons e rest ih =>
      have he : awareOk e = true := h e (List.mem_cons_self _ _)
      have hrest : ∀ x ∈ rest, awareOk x = true :=
        fun x hx => h x (List.mem_cons_of_mem _ hx)
      rw [dateFilterE, inWindowE_of_awareOk he, List.filter_cons]
      cases hb : inWindowB ws we e with
      | false =>
        show dateFilterE ws we rest = _
        rw [ih hrest]
        simp
      | true =>
        rw [ih hrest]
        simp
  · intro e
    rw [List.mem_filter, inWindowB_iff]

/-- C1, counterexample to the claim as stated: a record whose `startdate`
parses (to an offset-naive datetime) makes the filter raise instead of
being included or excluded. -/
theorem dateFilterE_naive_cex :
    dateFilterE 0 2000000000000000 [⟨"", "2025-06-01T10:00:00", ""⟩] =
      .error () ∧
    (parse_iso_datetime "2025-06-01T10:00:00").isSome = true :=
  ⟨rfl, rfl⟩

/-- C1 witness input: one in-window record, one unparsable record, one
out-of-window record. -/
theorem dateFilterE_spec_witness :
    dateFilterE 1700000000000000 1800000000000000
      [⟨"a", "2025-03-04T12:00:00+00:00", ""⟩, ⟨"b", "not a date", ""⟩,
       ⟨"c", "1999-01-01T00:00:00+00:00", ""⟩] =
      .ok ([⟨"a", "2025-03-04T12:00:00+00:00", ""⟩, ⟨"b", "not a date", ""⟩,
       ⟨"c", "1999-01-01T00:00:00+00:00", ""⟩].filter
        (inWindowB 1700000000000000 1800000000000000)) ∧
    (∀ e, e ∈ ([⟨"a", "2025-03-04T12:00:00+00:00", ""⟩, ⟨"b", "not a date", ""⟩,
       ⟨"c", "1999-01-01T00:00:00+00:00", ""⟩] : List Event).filter
        (inWindowB 1700000000000000 1800000000000000) ↔
      e ∈ ([⟨"a", "2025-03-04T12:00:00+00:00", ""⟩, ⟨"b", "not a date", ""⟩,
       ⟨"c", "1999-01-01T00:00:00+00:00", ""⟩] : List Event) ∧
      ∃ dt t, parse_iso_datetime e.startdate = some dt ∧ toInstant? dt = some t ∧
        1700000000000000 ≤ t ∧ t ≤ 1800000000000000) :=
  dateFilterE_spec 1700000000000000 1800000000000000 _ (by decide)

theorem dedupeByGuid_filter_ne : ∀ (l : List Event) (seen : List String)
    (g : String), g ≠ "" →
    (dedupeByGuid l seen).filter (fun e => e.guid == g) =
      if g ∈ seen then [] else (l.filter (fun e => e.guid == g)).take 1 := by
  intro l
  induction l with
  | nil =>
    intro seen g hg
    by_cases hgs : g ∈ seen
    · rw [if_pos hgs]; rfl
    · rw [if_neg hgs]; rfl
  | cons e rest ih =>
    intro seen g hg
    rw [dedupeByGuid_cons]
    by_cases h1 : e.guid ≠ "" ∧ e.guid ∈ seen
    · rw [if_pos h1, ih seen g hg]
      by_cases hgs : g ∈ seen
      · rw [if_pos hgs, if_pos hgs]
      · rw [if_neg hgs, if_neg hgs, List.filter_cons]
        have hne : (e.guid == g) = false := by
          refine beq_eq_false_iff_ne.mpr ?_
          intro heq
          exact hgs (heq ▸ h1.2)
        rw [hne]
        simp
    · rw [if_neg h1]
      by_cases h2 : e.guid ≠ ""
      · have hns : e.guid ∉ seen := fun hs => h1 ⟨h2, hs⟩
        rw [if_pos h2, List.filter_cons]
        by_cases hgg : (e.guid == g) = true
        · have hgeq : e.guid = g := by simpa using hgg
          rw [List.filter_cons, hgg]
          simp only [if_true]
          rw [ih (e.guid :: seen) g hg,
            if_pos (show g ∈ e.guid :: seen by
              rw [← hgeq]; exact List.mem_cons_self e.guid seen)]
          rw [if_neg (fun hgs => hns (by rw [hgeq]; exact hgs)),
            List.take_succ_cons, List.take_zero]
        · have hgf : (e.guid == g) = false := Bool.eq_false_iff.mpr hgg
          rw [List.filter_cons, hgf]
          simp only [Bool.false_eq_true, if_false]
          rw [ih (e.guid :: seen) g hg]
          have hne2 : ¬ (g = e.guid) := by
            intro heq
            exact hgg (by simp [heq])
          by_cases hgs : g ∈ seen
          · rw [if_pos (List.mem_cons_of_mem _ hgs), if_pos hgs]
          · rw [if_neg (fun hc => (List.mem_cons.mp hc).elim hne2 hgs),
              if_neg hgs]
      · have hge : e.guid = "" := by simpa using h2
        have hgf : (e.guid == g) = false :=
          beq_eq_false_iff_ne.mpr (fun heq => hg (by rw [← heq, hge]))
        rw [if_neg h2, List.filter_cons, List.filter_cons, hgf]
        simp only [Bool.false_eq_true, if_false]
        exact ih seen g hg

theorem dedupeByGuid_filter_empty : ∀ (l : List Event) (seen : List String),
    (dedupeByGuid l seen).filter (fun e => e.guid == "") =
      l.filter (fun e => e.guid == "") := by
  intro l
  induction l with
  | nil => intro seen; rfl
  | cons e rest ih =>
    intro seen
    rw [dedupeByGuid_cons]
    by_cases h1 : e.guid ≠ "" ∧ e.guid ∈ seen
    · have hgf : (e.guid == "") = false := beq_eq_false_iff_ne.mpr h1.1
      rw [if_pos h1, List.filter_cons, hgf]
      simp only [Bool.false_eq_true, if_false]
      exact ih seen
    · by_cases h2 : e.guid ≠ ""
      · have hgf : (e.guid == "") = false := beq_eq_false_iff_ne.mpr h2
        rw [if_neg h1, if_pos h2, List.filter_cons, List.filter_cons, hgf]
        simp only [Bool.false_eq_true, if_false]
        exact ih (e.guid :: seen)
      · have hge : e.guid = "" := by simpa using h2
        have hgt : (e.guid == "") = true := by simp [hge]
        rw [if_neg h1, if_neg h2, List.filter_cons, List.filter_cons, hgt]
        simp only [if_true]
        rw [ih seen]

/-- C2: among the in-window records sharing one non-empty guid, exactly the
first one in input order is kept by the deduplication pass; in-window
records with empty guid are all kept. -/
theorem filteredEventsE_dedupe_spec (ws we : Int) (evs wl : List Event)
    (h : dateFilterE ws we evs = .ok wl) :
    filteredEventsE ws we evs [] = .ok (dedupeByGuid wl []) ∧
    (∀ g : String, g ≠ "" →
      (dedupeByGuid wl []).filter (fun e => e.guid == g) =
        (wl.filter (fun e => e.guid == g)).take 1) ∧
    (dedupeByGuid wl []).filter (fun e => e.guid == "") =
      wl.filter (fun e => e.guid == "") := by
  refine ⟨?_, ?_, dedupeByGuid_filter_empty wl []⟩
  · rw [filteredEventsE_eq, h]
  · intro g hg
    rw [dedupeByGuid_filter_ne wl [] g hg, if_neg (List.not_mem_nil g)]

/-- C2 witness input: two in-window records with the same non-empty guid
and two identical in-window records with empty guid. -/
theorem filteredEventsE_dedupe_spec_witness :
    filteredEventsE 1700000000000000 1800000000000000
      [⟨"x", "2025-03-04T12:00:00+00:00", ""⟩,
       ⟨"x", "2025-03-05T12:00:00+00:00", ""⟩,
       ⟨"", "2025-03-06T12:00:00+00:00", ""⟩,
       ⟨"", "2025-03-06T12:00:00+00:00", ""⟩] [] =
      .ok (dedupeByGuid
        [⟨"x", "2025-03-04T12:00:00+00:00", ""⟩,
         ⟨"x", "2025-03-05T12:00:00+00:00", ""⟩,
         ⟨"", "2025-03-06T12:00:00+00:00", ""⟩,
         ⟨"", "2025-03-06T12:00:00+00:00", ""⟩] []) ∧
    (∀ g : String, g ≠ "" →
      (dedupeByGuid
        [⟨"x", "2025-03-04T12:00:00+00:00", ""⟩,
         ⟨"x", "2025-03-05T12:00:00+00:00", ""⟩,
         ⟨"", "2025-03-06T12:00:00+00:00", ""⟩,
         ⟨"", "2025-03-06T12:00:00+00:00", ""⟩] []).filter
          (fun e => e.guid == g) =
        (([⟨"x", "2025-03-04T12:00:00+00:00", ""⟩,
         ⟨"x", "2025-03-05T12:00:00+00:00", ""⟩,
         ⟨"", "2025-03-06T12:00:00+00:00", ""⟩,
         ⟨"", "2025-03-06T12:00:00+00:00", ""⟩] : List Event).filter
          (fun e => e.guid == g)).take 1) ∧
    (dedupeByGuid
      [⟨"x", "2025-03-04T12:00:00+00:00", ""⟩,
       ⟨"x", "2025-03-05T12:00:00+00:00", ""⟩,
       ⟨"", "2025-03-06T12:00:00+00:00", ""⟩,
       ⟨"", "2025-03-06T12:00:00+00:00", ""⟩] []).filter
        (fun e => e.guid == "") =
      ([⟨"x", "2025-03-04T12:00:00+00:00", ""⟩,
       ⟨"x", "2025-03-05T12:00:00+00:00", ""⟩,
       ⟨"", "2025-03-06T12:00:00+00:00", ""⟩,
       ⟨"", "2025-03-06T12:00:00+00:00", ""⟩] : List Event).filter
        (fun e => e.guid == "") :=
  filteredEventsE_dedupe_spec 1700000000000000 1800000000000000 _ _ rfl

/-! ### Sorting the surviving records (C9)

`filtered_events.sort(key=lambda e: parse_iso_datetime(e['startdate']) or
datetime.min)` is Python's stable ascending sort by the parsed start
instant (every survivor parses to an aware datetime, so the `datetime.min`
fallback is never used).  A stable ascending sort is extensionally unique,
so it is modelled by stable insertion sort. -/

/-- The sort key: the parsed start instant (`0` stands in for records the
filter can never let through). -/
def sortKey (e : Event) : Int :=
  match parse_iso_datetime e.startdate with
  | none => 0
  | some dt =>
    match toInstant? dt with
    | none => 0
    | some t => t

/-- Stable insertion: `e` goes before the first element with a strictly
larger key, i.e. after every equal-key element already present. -/
def insertByKey (e : Event) : List Event → List Event
  | [] => [e]
  | x :: xs =>
    if sortKey e ≤ sortKey x then e :: x :: xs else x :: insertByKey e xs

def sortByStart (l : List Event) : List Event := l.foldr insertByKey []

theorem mem_insertByKey {e x : Event} : ∀ {l : List Event},
    x ∈ insertByKey e l → x = e ∨ x ∈ l := by
  intro l
  induction l with
  | nil =>
    intro h
    rw [insertByKey, List.mem_singleton] at h
    exact Or.inl h
  | cons y ys ih =>
    intro h
    rw [insertByKey] at h
    by_cases hle : sortKey e ≤ sortKey y
    · rw [if_pos hle] at h
      rcases List.mem_cons.mp h with h1 | h1
      · exact Or.inl h1
      · exact Or.inr h1
    · rw [if_neg hle] at h
      rcases List.mem_cons.mp h with h1 | h1
      · exact Or.inr (h1 ▸ List.mem_cons_self y ys)
      · rcases ih h1 with h2 | h2
        · exact Or.inl h2
        · exact Or.inr (List.mem_cons_of_mem _ h2)

theorem pairwise_insertByKey {e : Event} : ∀ {l : List Event},
    l.Pairwise (fun a b => sortKey a ≤ sortKey b) →
    (insertByKey e l).Pairwise (fun a b => sortKey a ≤ sortKey b) := by
  intro l
  induction l with
  | nil =>
    intro _
    rw [insertByKey]
    exact List.pairwise_singleton _ _
  | cons y ys ih =>
    intro hp
    rw [List.pairwise_cons] at hp
    obtain ⟨hy, hys⟩ := hp
    rw [insertByKey]
    by_cases hle : sortKey e ≤ sortKey y
    · rw [if_pos hle, List.pairwise_cons]
      refine ⟨?_, List.pairwise_cons.mpr ⟨hy, hys⟩⟩
      intro z hz
      rcases List.mem_cons.mp hz with h1 | h1
      · exact h1 ▸ hle
      · exact le_trans hle (hy z h1)
    · rw [if_neg hle, List.pairwise_cons]
      refine ⟨?_, ih hys⟩
      intro z hz
      rcases mem_insertByKey hz with h1 | h1
      · exact h1 ▸ le_of_lt (lt_of_not_le hle)
      · exact hy z h1

theorem sortByStart_pairwise (l : List Event) :
    (sortByStart l).Pairwise (fun a b => sortKey a ≤ sortKey b) := by
  induction l with
  | nil => exact List.Pairwise.nil
  | cons e rest ih => exact pairwise_insertByKey ih

theorem filter_insertByKey (k : Int) (e : Event) : ∀ (l : List Event),
    (insertByKey e l).filter (fun x => sortKey x == k) =
      ((e :: l).filter (fun x => sortKey x == k)) := by
  intro l
  induction l with
  | nil => rfl
  | cons x xs ih =>
    rw [insertByKey]
    by_cases hle : sortKey e ≤ sortKey x
    · rw [if_pos hle]
    · rw [if_neg hle, List.filter_cons, ih, List.filter_cons]
      by_cases hek : (sortKey e == k) = true
      · have hke : sortKey e = k := by simpa using hek
        have hxk : (sortKey x == k) = false := by
          refine beq_eq_false_iff_ne.mpr ?_
          intro hxe
          exact hle (le_of_eq (hxe.trans hke.symm).symm)
        rw [hek, hxk]
        simp only [if_true, Bool.false_eq_true, if_false]
        rw [List.filter_cons, List.filter_cons, hek, hxk]
        simp only [if_true, Bool.false_eq_true, if_false]
      · have hekf : (sortKey e == k) = false := Bool.eq_false_iff.mpr hek
        rw [hekf]
        simp only [Bool.false_eq_true, if_false]
        rw [List.filter_cons, List.filter_cons, hekf]
        simp only [Bool.false_eq_true, if_false]

theorem sortByStart_filter (k : Int) (l : List Event) :
    (sortByStart l).filter (fun x => sortKey x == k) =
      l.filter (fun x => sortKey x == k) := by
  induction l with
  | nil => rfl
  | cons e rest ih =>
    show (insertByKey e (sortByStart rest)).filter (fun x => sortKey x == k) = _
    rw [filter_insertByKey, List.filter_cons, List.filter_cons]
    by_cases hek : (sortKey e == k) = true
    · rw [hek]
      simp only [if_true]
      rw [ih]
    · have hekf : (sortKey e == k) = false := Bool.eq_false_iff.mpr hek
      rw [hekf]
      simp only [Bool.false_eq_true, if_false]
      exact ih

theorem mem_dedupeByGuid : ∀ {l : List Event} {seen : List String} {x : Event},
    x ∈ dedupeByGuid l seen → x ∈ l := by
  intro l
  induction l with
  | nil => intro seen x h; simp [dedupeByGuid] at h
  | cons e rest ih =>
    intro seen x h
    rw [dedupeByGuid_cons] at h
    by_cases h1 : e.guid ≠ "" ∧ e.guid ∈ seen
    · rw [if_pos h1] at h
      exact List.mem_cons_of_mem _ (ih h)
    · rw [if_neg h1] at h
      by_cases h2 : e.guid ≠ ""
      · rw [if_pos h2] at h
        rcases List.mem_cons.mp h with hx | hx
        · exact hx ▸ List.mem_cons_self e rest
        · exact List.mem_cons_of_mem _ (ih hx)
      · rw [if_neg h2] at h
        rcases List.mem_cons.mp h with hx | hx
        · exact hx ▸ List.mem_cons_self e rest
        · exact List.mem_cons_of_mem _ (ih hx)

theorem mem_dateFilterE : ∀ {ws we : Int} {evs wl : List Event},
    dateFilterE ws we evs = .ok wl → ∀ e ∈ wl, inWindowE ws we e = .ok true := by
  intro ws we evs
  induction evs with
  | nil =>
    intro wl h e he
    rw [dateFilterE] at h
    rw [← Except.ok.inj h] at he
    simp at he
  | cons x rest ih =>
    intro wl h e he
    rw [dateFilterE] at h
    cases hw : inWindowE ws we x with
    | error u => rw [hw] at h; exact Except.noConfusion h
    | ok b =>
      rw [hw] at h
      cases b with
      | false => exact ih h e he
      | true =>
        cases hd : dateFilterE ws we rest with
        | error u => rw [hd] at h; exact Except.noConfusion h
        | ok l =>
          rw [hd] at h
          rw [← Except.ok.inj h] at he
          rcases List.mem_cons.mp he with h1 | h1
          · exact h1 ▸ hw
          · exact ih hd e h1

theorem inWindowE_ok_true {ws we : Int} {e : Event}
    (h : inWindowE ws we e = .ok true) :
    ∃ dt t, parse_iso_datetime e.startdate = some dt ∧ toInstant? dt = some t ∧
      sortKey e = t := by
  rw [inWindowE] at h
  cases hp : parse_iso_datetime e.startdate with
  | none =>
    rw [hp] at h
    simp at h
  | some dt =>
    rw [hp] at h
    have h2 : (match toInstant? dt with
      | none => Except.error ()
      | some t => Except.ok (decide (ws ≤ t ∧ t ≤ we))) =
      (Except.ok true : Except Unit Bool) := h
    cases ht : toInstant? dt with
    | none => rw [ht] at h2; exact Except.noConfusion h2
    | some t =>
      refine ⟨dt, t, rfl, ht, ?_⟩
      show (match parse_iso_datetime e.startdate with
        | none => (0 : Int)
        | some dt =>
          match toInstant? dt with
          | none => 0
          | some t => t) = t
      rw [hp]
      show (match toInstant? dt with
        | none => (0 : Int)
        | some t => t) = t
      rw [ht]

/-- C9: the surviving record set, sorted, is ascending by start instant and
stable (records with one and the same key keep their relative input
order); each survivor's key is its parsed aware start instant. -/
theorem sortByStart_spec (ws we : Int) (evs wl : List Event)
    (h : filteredEventsE ws we evs [] = .ok wl) :
    (sortByStart wl).Pairwise (fun a b => sortKey a ≤ sortKey b) ∧
    (∀ k : Int, (sortByStart wl).filter (fun x => sortKey x == k) =
      wl.filter (fun x => sortKey x == k)) ∧
    (∀ e ∈ wl, ∃ dt t, parse_iso_datetime e.startdate = some dt ∧
      toInstant? dt = some t ∧ sortKey e = t) := by
  refine ⟨sortByStart_pairwise wl, fun k => sortByStart_filter k wl, ?_⟩
  intro e he
  rw [filteredEventsE_eq] at h
  cases hd : dateFilterE ws we evs with
  | error u => rw [hd] at h; exact Except.noConfusion h
  | ok fl =>
    rw [hd] at h
    have hwl : wl = dedupeByGuid fl [] := (Except.ok.inj h).symm
    have hfl : e ∈ fl := mem_dedupeByGuid (hwl ▸ he)
    exact inWindowE_ok_true (mem_dateFilterE hd e hfl)

/-- C9 witness input: three in-window records, the first two sharing one
start instant, the third earlier (so sorting reorders it to the front while
the tied pair keeps its input order). -/
theorem sortByStart_spec_witness :
    ((sortByStart [⟨"a", "2025-03-05T12:00:00+00:00", ""⟩,
        ⟨"b", "2025-03-05T14:00:00+02:00", ""⟩,
        ⟨"c", "2025-03-04T12:00:00+00:00", ""⟩]).Pairwise
      (fun a b => sortKey a ≤ sortKey b) ∧
    (∀ k : Int, (sortByStart [⟨"a", "2025-03-05T12:00:00+00:00", ""⟩,
        ⟨"b", "2025-03-05T14:00:00+02:00", ""⟩,
        ⟨"c", "2025-03-04T12:00:00+00:00", ""⟩]).filter
        (fun x => sortKey x == k) =
      ([⟨"a", "2025-03-05T12:00:00+00:00", ""⟩,
        ⟨"b", "2025-03-05T14:00:00+02:00", ""⟩,
        ⟨"c", "2025-03-04T12:00:00+00:00", ""⟩] : List Event).filter
        (fun x => sortKey x == k)) ∧
    (∀ e ∈ ([⟨"a", "2025-03-05T12:00:00+00:00", ""⟩,
        ⟨"b", "2025-03-05T14:00:00+02:00", ""⟩,
        ⟨"c", "2025-03-04T12:00:00+00:00", ""⟩] : List Event),
      ∃ dt t, parse_iso_datetime e.startdate = some dt ∧
        toInstant? dt = some t ∧ sortKey e = t)) ∧
    sortByStart [⟨"a", "2025-03-05T12:00:00+00:00", ""⟩,
        ⟨"b", "2025-03-05T14:00:00+02:00", ""⟩,
        ⟨"c", "2025-03-04T12:00:00+00:00", ""⟩] =
      [⟨"c", "2025-03-04T12:00:00+00:00", ""⟩,
       ⟨"a", "2025-03-05T12:00:00+00:00", ""⟩,
       ⟨"b", "2025-03-05T14:00:00+02:00", ""⟩] :=
  ⟨sortByStart_spec 1700000000000000 1800000000000000
    [⟨"a", "2025-03-05T12:00:00+00:00", ""⟩,
     ⟨"b", "2025-03-05T14:00:00+02:00", ""⟩,
     ⟨"c", "2025-03-04T12:00:00+00:00", ""⟩]
    [⟨"a", "2025-03-05T12:00:00+00:00", ""⟩,
     ⟨"b", "2025-03-05T14:00:00+02:00", ""⟩,
     ⟨"c", "2025-03-04T12:00:00+00:00", ""⟩] rfl, rfl⟩

/-! ### `extract_location_from_description` (C5)

`re.search(r'In-[Pp]erson:\s*(.+?)(?:$|\n|Zoom)', cleaned, re.MULTILINE)`:
the literal `In-person:` / `In-Person:` (only the `P` is written
case-insensitively), greedy `\s*`, a lazy group of at least one
non-newline character, and a terminator: end of text, a position before a
newline (`$` under MULTILINE), a literal newline, or the literal `Zoom`. -/

/-- Does some terminator alternative `$ | \n | Zoom` match here?  (Which
one is irrelevant for the captured group.) -/
def termHere : List Char → Bool
  | [] => true
  | '\n' :: _ => true
  | l => ['Z', 'o', 'o', 'm'].isPrefixOf l

/-- The lazy group scan: `acc` holds the group so far, reversed; extend by
one non-newline character at a time until a terminator matches. -/
def lazyGroup : List Char → List Char → Option (List Char)
  | acc, rest =>
    if termHere rest then some acc.reverse
    else
      match rest with
      | [] => none
      | c :: r => if c = '\n' then none else lazyGroup (c :: acc) r

/-- `(.+?)` — at least one character, which `.` forbids to be a newline. -/
def dotPlusLazy : List Char → Option (List Char)
  | [] => none
  | c :: r => if c = '\n' then none else lazyGroup [c] r

/-- Greedy `\s*` with backtracking: try the group after `k` skipped
whitespace characters, from the maximal run length down to zero. -/
def tryWs : Nat → List Char → Option (List Char)
  | 0, t => dotPlusLazy t
  | k + 1, t =>
    match dotPlusLazy (t.drop (k + 1)) with
    | some g => some g
    | none => tryWs k t

def matchAfterColon (t : List Char) : Option (List Char) :=
  tryWs (t.takeWhile pyWs).length t

def inPersonLit1 : List Char := "In-person:".data

def inPersonLit2 : List Char := "In-Person:".data

/-- The `re.search` scan: at each position try the 10-character literal
(either case of `P`) followed by the rest of the pattern; on failure move
one position right. -/
def searchInPerson : List Char → Option (List Char)
  | [] => none
  | c :: rest =>
    if inPersonLit1.isPrefixOf (c :: rest) || inPersonLit2.isPrefixOf (c :: rest) then
      match matchAfterColon ((c :: rest).drop 10) with
      | some g => some g
      | none => searchInPerson rest
    else searchInPerson rest

/-- The post-processing of `match.group(1)`: strip, drop one trailing
comma (`re.sub(r',\s*$', '')` after a strip can only see a final comma),
strip, keep the part before the first comma if any, strip; empty → `None`. -/
def locationPostProcess (g : List Char) : Option String :=
  let l1 := pyStrip g
  let l2 := if l1.getLast? = some ',' then pyStrip l1.dropLast else l1
  let l3 := if ',' ∈ l2 then pyStrip (l2.takeWhile (fun c => !(c == ','))) else l2
  if l3 = [] then none else some (String.mk l3)

/-- `extract_location_from_description` of `src/main.py`. -/
def extract_location_from_description (description : String) : Option String :=
  match searchInPerson (clean_html_description description).data with
  | none => none
  | some g => locationPostProcess g

/-- The literal occurs somewhere in the text. -/
def OccursIn (pat l : List Char) : Prop := ∃ a b, l = a ++ pat ++ b

theorem searchInPerson_none : ∀ {l : List Char},
    ¬ OccursIn inPersonLit1 l → ¬ OccursIn inPersonLit2 l →
    searchInPerson l = none := by
  intro l
  induction l with
  | nil => intro _ _; rfl
  | cons c rest ih =>
    intro h1 h2
    rw [searchInPerson]
    have hno : (inPersonLit1.isPrefixOf (c :: rest) ||
        inPersonLit2.isPrefixOf (c :: rest)) = false := by
      rw [Bool.or_eq_false_iff]
      constructor
      · cases hp : inPersonLit1.isPrefixOf (c :: rest) with
        | false => rfl
        | true =>
          obtain ⟨t, ht⟩ := List.isPrefixOf_iff_prefix.mp hp
          exact absurd ⟨[], t, by rw [← ht]; rfl⟩ h1
      · cases hp : inPersonLit2.isPrefixOf (c :: rest) with
        | false => rfl
        | true =>
          obtain ⟨t, ht⟩ := List.isPrefixOf_iff_prefix.mp hp
          exact absurd ⟨[], t, by rw [← ht]; rfl⟩ h2
    rw [hno]
    simp only [Bool.false_eq_true, if_false]
    refine ih ?_ ?_
    · intro ⟨a, b, hab⟩
      exact h1 ⟨c :: a, b, by rw [hab]; rfl⟩
    · intro ⟨a, b, hab⟩
      exact h2 ⟨c :: a, b, by rw [hab]; rfl⟩

theorem mem_pyStrip_of_mem {c : Char} {l : List Char} : c ∈ pyStrip l → c ∈ l :=
  mem_pyStrip

theorem locationPostProcess_spec {g : List Char} {s : String}
    (h : locationPostProcess g = some s) : s ≠ "" ∧ ',' ∉ s.data := by
  rw [locationPostProcess] at h
  set l1 := pyStrip g with hl1
  set l2 := if l1.getLast? = some ',' then pyStrip l1.dropLast else l1 with hl2
  set l3 := if ',' ∈ l2 then pyStrip (l2.takeWhile (fun c => !(c == ','))) else l2
    with hl3
  by_cases hnil : l3 = []
  · rw [if_pos hnil] at h
    exact Option.noConfusion h
  · rw [if_neg hnil] at h
    have hs : s = String.mk l3 := (Option.some.inj h).symm
    constructor
    · intro hempty
      rw [hs] at hempty
      exact hnil (congrArg String.data hempty)
    · intro hmem
      rw [hs] at hmem
      have hmem3 : ',' ∈ l3 := hmem
      by_cases hc : ',' ∈ l2
      · rw [hl3, if_pos hc] at hmem3
        have h4 := List.mem_takeWhile_imp (mem_pyStrip_of_mem hmem3)
        simp at h4
      · rw [hl3, if_neg hc] at hmem3
        exact hc hmem3

/-- C5, counterexample to the claim as stated: the search is
case-sensitive in `In-` (only the `P` may vary), so the lowercase variant
matches nothing where a case-insensitive search would. -/
theorem extract_location_case_cex :
    extract_location_from_description "in-person: West Hall" = none ∧
    extract_location_from_description "In-person: West Hall" = some "West Hall" :=
  ⟨rfl, rfl⟩

/-- C5, amended: the search looks for the literals `In-person:` or
`In-Person:` (only the `P` case-insensitive); the captured value is
trimmed, truncated at its first comma and returned, never empty and never
containing a comma; no occurrence of either literal means `none`; the
spec's example and the `In-Person` variant hold. -/
theorem extract_location_spec :
    (∀ (d : String) (s : String), extract_location_from_description d = some s →
      s ≠ "" ∧ ',' ∉ s.data) ∧
    (∀ d : String, ¬ OccursIn inPersonLit1 (clean_html_description d).data →
      ¬ OccursIn inPersonLit2 (clean_html_description d).data →
      extract_location_from_description d = none) ∧
    extract_location_from_description
      "In-person: West Hall, Room 340\nZoom: ..." = some "West Hall" ∧
    extract_location_from_description "In-Person: Hall" = some "Hall" ∧
    extract_location_from_description "In-person:   " = none := by
  refine ⟨?_, ?_, rfl, rfl, rfl⟩
  · intro d s h
    rw [extract_location_from_description] at h
    cases hse : searchInPerson (clean_html_description d).data with
    | none => rw [hse] at h; exact Option.noConfusion h
    | some g =>
      rw [hse] at h
      exact locationPostProcess_spec h
  · intro d h1 h2
    rw [extract_location_from_description, searchInPerson_none h1 h2]

/-! ### `extract_speaker_from_description` (C6)

Three passes of `re.sub(r'^.*?LIT.*?$\n?', '', cleaned, flags=re.MULTILINE)`
drop every line containing the literal (the `\n?` consumes the line's own
newline; matches never span lines since `.` excludes newlines), for the
literals `Event Begins:`, `Location:`, `Organized By:` — all
case-sensitive.  Then the first line is matched against
`^(.+?)\s*\(([^)]+)\)\s*$` (lazy name, then a final parenthetical), with a
plain-first-line fallback under 200 characters. -/

/-- `s.split('\n')`. -/
def splitLinesA : List Char → List (List Char)
  | [] => [[]]
  | '\n' :: r => [] :: splitLinesA r
  | c :: r =>
    match splitLinesA r with
    | [] => [[c]]
    | ln :: rest => (c :: ln) :: rest

/-- Rejoin after dropping bad lines: a kept line keeps its following
newline, a dropped line disappears with it (the `\n?` of the pattern). -/
def joinSub (bad : List Char → Bool) : List (List Char) → List Char
  | [] => []
  | [ln] => if bad ln then [] else ln
  | ln :: rest => if bad ln then joinSub bad rest else ln ++ '\n' :: joinSub bad rest

/-- One line-dropping `re.sub` pass. -/
def subLines (bad : List Char → Bool) (l : List Char) : List Char :=
  joinSub bad (splitLinesA l)

/-- Substring containment of a literal (case-sensitive). -/
def containsSeq (pat : List Char) : List Char → Bool
  | [] => pat.isPrefixOf []
  | c :: r => pat.isPrefixOf (c :: r) || containsSeq pat r

/-- The first line (`s.split('\n')[0]`). -/
def firstLineOf (l : List Char) : List Char := (splitLinesA l).headD []

/-- Does the rest of the line match `\s*\(([^)]+)\)\s*$`?  (`\s*` must end
exactly at `(`, `[^)]+` runs to the first `)`, and only whitespace may
follow — all forced, no backtracking choices remain.) -/
def checkRest (rest : List Char) : Bool :=
  match rest.dropWhile pyWs with
  | '(' :: r2 =>
    match r2.dropWhile (fun c => !(c == ')')) with
    | ')' :: r4 => !(r2.takeWhile (fun c => !(c == ')'))).isEmpty && r4.all pyWs
    | _ => false
  | _ => false

/-- The lazy `^(.+?)` scan: try name lengths 1, 2, … until the rest of the
line matches; the name may not contain a newline (it never does, the input
being a single line). -/
def findNameGo : List Char → List Char → Option (List Char)
  | _, [] => none
  | acc, c :: r =>
    if c = '\n' then none
    else if checkRest r then some (c :: acc).reverse
    else findNameGo (c :: acc) r

def findName (l : List Char) : Option (List Char) := findNameGo [] l

/-- The first-line analysis (src/main.py lines 246-255): if the line
matches the `Name (Affiliation)` pattern return the trimmed name part,
else return the trimmed line when non-empty and under 200 characters,
else the empty string. -/
def speakerFromFirstLine (first : List Char) : String :=
  match findName first with
  | some name => String.mk (pyStrip name)
  | none =>
    let fl := pyStrip first
    if fl ≠ [] ∧ fl.length < 200 then String.mk fl else ""

set_option linter.unusedVariables false in
/-- `extract_speaker_from_description` of `src/main.py` (the `title`
parameter is unused in the source as well). -/
def extract_speaker_from_description (description title : String) : String :=
  let cleaned := (clean_html_description description).data
  let cleaned := subLines (containsSeq "Event Begins:".data) cleaned
  let cleaned := subLines (containsSeq "Location:".data) cleaned
  let cleaned := subLines (containsSeq "Organized By:".data) cleaned
  speakerFromFirstLine (firstLineOf cleaned)

/-- A line dropped by one of the three passes. -/
def badSpeakerLine (ln : List Char) : Bool :=
  containsSeq "Event Begins:".data ln || containsSeq "Location:".data ln ||
    containsSeq "Organized By:".data ln

theorem splitLinesA_ne_nil : ∀ (l : List Char), splitLinesA l ≠ [] := by
  intro l
  cases l with
  | nil => simp [splitLinesA]
  | cons c r =>
    by_cases hc : c = '\n'
    · subst hc; rw [splitLinesA.eq_2]; simp
    · rw [splitLinesA.eq_3 c r (fun h2 => hc h2)]
      cases splitLinesA r with
      | nil => simp
      | cons ln rest => simp

theorem splitLinesA_no_newline : ∀ (l : List Char) (ln : List Char),
    ln ∈ splitLinesA l → '\n' ∉ ln := by
  intro l
  induction l with
  | nil =>
    intro ln h
    rw [List.mem_singleton.mp h]
    exact List.not_mem_nil _
  | cons c r ih =>
    intro ln h
    by_cases hc : c = '\n'
    · subst hc
      rw [show splitLinesA ('\n' :: r) = [] :: splitLinesA r from rfl] at h
      rcases List.mem_cons.mp h with h1 | h1
      · rw [h1]; exact List.not_mem_nil _
      · exact ih ln h1
    · rw [splitLinesA.eq_3 c r (fun h2 => hc h2)] at h
      cases hsp : splitLinesA r with
      | nil => exact absurd hsp (splitLinesA_ne_nil r)
      | cons ln2 rest =>
        rw [hsp] at h
        have h3 : ln ∈ (c :: ln2) :: rest := h
        rcases List.mem_cons.mp h3 with h1 | h1
        · rw [h1]
          intro hmem
          rcases List.mem_cons.mp hmem with h2 | h2
          · exact hc h2.symm
          · refine ih ln2 ?_ h2
            rw [hsp]
            exact List.mem_cons_self ln2 rest
        · refine ih ln ?_
          rw [hsp]
          exact List.mem_cons_of_mem _ h1

theorem splitLinesA_single {ln : List Char} (h : '\n' ∉ ln) :
    splitLinesA ln = [ln] := by
  induction ln with
  | nil => rfl
  | cons c r ih =>
    have hc : ¬ c = '\n' := fun hcc => h (hcc ▸ List.mem_cons_self c r)
    have hr : '\n' ∉ r := fun hmem => h (List.mem_cons_of_mem _ hmem)
    rw [splitLinesA.eq_3 c r (fun h2 => hc h2), ih hr]

theorem splitLinesA_append {ln x : List Char} (h : '\n' ∉ ln) :
    splitLinesA (ln ++ '\n' :: x) = ln :: splitLinesA x := by
  induction ln with
  | nil => rfl
  | cons c r ih =>
    have hc : ¬ c = '\n' := fun hcc => h (hcc ▸ List.mem_cons_self c r)
    have hr : '\n' ∉ r := fun hmem => h (List.mem_cons_of_mem _ hmem)
    rw [List.cons_append,
      splitLinesA.eq_3 c (r ++ '\n' :: x) (fun h2 => hc h2), ih hr]

set_option maxRecDepth 16384

/-- The lines of a line-dropping pass: the kept lines, possibly followed by
empty-line artifacts (a dropped final line leaves the newline of the line
before it). -/
theorem splitLinesA_joinSub (bad : List Char → Bool) :
    ∀ (lines : List (List Char)), (∀ ln ∈ lines, '\n' ∉ ln) →
    ∃ pad, splitLinesA (joinSub bad lines) =
      lines.filter (fun ln => !(bad ln)) ++ pad ∧ ∀ x ∈ pad, x = ([] : List Char) := by
  intro lines
  induction lines with
  | nil =>
    intro _
    exact ⟨[[]], rfl, by simp⟩
  | cons ln rest ih =>
    intro hnl
    have hln : '\n' ∉ ln := hnl ln (List.mem_cons_self _ _)
    have hrest : ∀ x ∈ rest, '\n' ∉ x := fun x hx => hnl x (List.mem_cons_of_mem _ hx)
    cases rest with
    | nil =>
      by_cases hb : bad ln = true
      · refine ⟨[[]], ?_, by simp⟩
        rw [show joinSub bad [ln] = if bad ln then [] else ln from rfl, if_pos hb]
        rw [List.filter_cons_of_neg (by simp [hb])]
        simp [splitLinesA]
      · have hbf : bad ln = false := Bool.eq_false_iff.mpr hb
        refine ⟨[], ?_, by simp⟩
        rw [show joinSub bad [ln] = if bad ln then [] else ln from rfl, if_neg hb]
        rw [List.filter_cons_of_pos (by rw [hbf]; rfl)]
        rw [splitLinesA_single hln, List.filter_nil, List.append_nil]
    | cons ln2 rest2 =>
      obtain ⟨pad, hpad, hpadE⟩ := ih hrest
      by_cases hb : bad ln = true
      · refine ⟨pad, ?_, hpadE⟩
        rw [show joinSub bad (ln :: ln2 :: rest2) =
          if bad ln then joinSub bad (ln2 :: rest2)
          else ln ++ '\n' :: joinSub bad (ln2 :: rest2) from rfl, if_pos hb]
        rw [List.filter_cons_of_neg (by simp [hb])]
        exact hpad
      · have hbf : bad ln = false := Bool.eq_false_iff.mpr hb
        refine ⟨pad, ?_, hpadE⟩
        rw [show joinSub bad (ln :: ln2 :: rest2) =
          if bad ln then joinSub bad (ln2 :: rest2)
          else ln ++ '\n' :: joinSub bad (ln2 :: rest2) from rfl, if_neg hb]
        rw [List.filter_cons_of_pos (by rw [hbf]; rfl)]
        rw [splitLinesA_append hln, hpad, List.cons_append]

theorem headD_append_pad {A pad : List (List Char)}
    (hpadE : ∀ x ∈ pad, x = ([] : List Char)) :
    (A ++ pad).headD [] = A.headD [] := by
  cases A with
  | nil =>
    cases pad with
    | nil => rfl
    | cons p ps =>
      simp only [List.nil_append, List.headD_cons]
      exact hpadE p (List.mem_cons_self _ _)
  | cons a as => rfl

theorem subLines_lines (bad : List Char → Bool) (l : List Char) :
    ∃ pad, splitLinesA (subLines bad l) =
      (splitLinesA l).filter (fun ln => !(bad ln)) ++ pad ∧
      ∀ x ∈ pad, x = ([] : List Char) :=
  splitLinesA_joinSub bad (splitLinesA l) (splitLinesA_no_newline l)

/-- C6, the line-dropping part: the first line the speaker logic sees is
the first line (of the cleaned description) that none of the three
literals occurs in. -/
theorem extract_speaker_eq_filter (d t : String) :
    extract_speaker_from_description d t = speakerFromFirstLine
      (((splitLinesA (clean_html_description d).data).filter
        (fun ln => !(badSpeakerLine ln))).headD []) := by
  set x := (clean_html_description d).data with hx
  set b1 := containsSeq "Event Begins:".data with hb1
  set b2 := containsSeq "Location:".data with hb2
  set b3 := containsSeq "Organized By:".data with hb3
  obtain ⟨p1, hp1, hp1E⟩ := subLines_lines b1 x
  obtain ⟨p2, hp2, hp2E⟩ := subLines_lines b2 (subLines b1 x)
  obtain ⟨p3, hp3, hp3E⟩ := subLines_lines b3 (subLines b2 (subLines b1 x))
  show speakerFromFirstLine (firstLineOf (subLines b3 (subLines b2 (subLines b1 x)))) = _
  rw [firstLineOf, hp3, headD_append_pad hp3E, hp2, List.filter_append,
    headD_append_pad (fun y hy => hp2E y (List.mem_filter.mp hy).1),
    List.filter_filter, hp1, List.filter_append,
    headD_append_pad (fun y hy => hp1E y (List.mem_filter.mp hy).1),
    List.filter_filter]
  have hfe : (splitLinesA x).filter (fun a => !b3 a && !b2 a && !b1 a) =
      (splitLinesA x).filter (fun ln => !(badSpeakerLine ln)) := by
    refine List.filter_congr ?_
    intro ln _
    rw [badSpeakerLine]
    show (!b3 ln && !b2 ln && !b1 ln) = !(b1 ln || b2 ln || b3 ln)
    cases b1 ln <;> cases b2 ln <;> cases b3 ln <;> rfl
  rw [hfe]

/-- C6, counterexample to the claim as stated: the line-dropping is
case-sensitive (`Event begins:` with a lowercase `b` is kept and becomes
the speaker), where the claimed case-insensitive matching would drop the
line and return the empty string. -/
theorem extract_speaker_case_cex :
    extract_speaker_from_description "Event begins: 5pm" "t" = "Event begins: 5pm" ∧
    ("Event begins: 5pm" : String) ≠ "" :=
  ⟨rfl, by decide⟩

/-- C6, amended: with case-sensitive literal matching, the function drops
every line containing `Event Begins:`, `Location:` or `Organized By:`,
then analyses the first remaining line: a trailing-parenthetical match
returns the trimmed name part, otherwise a non-empty first line under 200
characters is returned trimmed, otherwise the empty string; the
`Name (Affiliation)` example, the plain-line fallback, the 200-character
cutoff and the empty input are verified. -/
theorem extract_speaker_spec :
    (∀ d t : String, extract_speaker_from_description d t = speakerFromFirstLine
      (((splitLinesA (clean_html_description d).data).filter
        (fun ln => !(badSpeakerLine ln))).headD [])) ∧
    extract_speaker_from_description "John Doe (MIT)\nLocation: Hall" "t" =
      "John Doe" ∧
    extract_speaker_from_description "Event Begins: 3pm\nJane Roe (Oxford)" "t" =
      "Jane Roe" ∧
    extract_speaker_from_description "Some Speaker Name" "t" = "Some Speaker Name" ∧
    extract_speaker_from_description (String.mk (List.replicate 200 'a')) "t" = "" ∧
    extract_speaker_from_description "" "t" = "" :=
  ⟨extract_speaker_eq_filter, rfl, rfl, rfl, rfl, rfl⟩

/-! ### `parse_rss_feed` (C10)

`ET.fromstring` (the XML text parser) is an external collaborator; the
embedding starts from the parsed element tree.  Tags are the strings the
code passes to `find` (`ev:`-prefixed names stand for the
namespace-resolved tags).  `el.text` is `Option String`: an element
present but empty has text `None`, exactly as in Python. -/

mutual
inductive XmlElem where
  | mk (tag : String) (text : Option String) (children : XmlChildren)
inductive XmlChildren where
  | nil
  | cons (e : XmlElem) (rest : XmlChildren)
end

def XmlElem.tag : XmlElem → String
  | .mk t _ _ => t

def XmlElem.text : XmlElem → Option String
  | .mk _ tx _ => tx

def XmlElem.children : XmlElem → XmlChildren
  | .mk _ _ c => c

mutual
/-- All elements with the given tag in the subtree rooted here, in
document order (the element itself included). -/
def findAllTag (t : String) : XmlElem → List XmlElem
  | .mk tag tx ch =>
    (if tag = t then [XmlElem.mk tag tx ch] else []) ++ findAllTagL t ch
/-- The same over a child list: `root.findall('.//TAG')` is
`findAllTagL t root.children`. -/
def findAllTagL (t : String) : XmlChildren → List XmlElem
  | .nil => []
  | .cons e rest => findAllTag t e ++ findAllTagL t rest
end

/-- `item.find(TAG)`: the first direct child with the tag. -/
def findChild (t : String) : XmlChildren → Option XmlElem
  | .nil => none
  | .cons e rest => if e.tag = t then some e else findChild t rest

/-- The Python idiom `el.text if el is not None else DEFAULT`. -/
def textOr (t : String) (ch : XmlChildren) (dflt : String) : Option String :=
  match findChild t ch with
  | some el => el.text
  | none => some dflt

/-- The dict `parse_rss_feed` builds per item (fields in source order;
`link` and `guid` are always strings in the source, the text fields may be
Python `None`). -/
structure ParsedItem where
  title : Option String
  link : String
  guid : String
  description : Option String
  category : Option String
  pubDate : Option String
  startdate : Option String
  enddate : Option String
  location : Option String
  organizer : Option String
  event_type : Option String
  speaker : Option String
  detail_location : Option String
  youtube_link : Option String
deriving DecidableEq, Repr

/-- One `<item>` turned into a record.  `Except.error` models the
`TypeError` Python raises on `'@' in guid_text` when a `<guid>` child is
present but has no text (`guid.text is None`). -/
def buildItem (item : XmlElem) : Except Unit ParsedItem :=
  let ch := item.children
  let guidText : Option String :=
    match findChild "guid" ch with
    | some g => g.text
    | none => some ""
  match guidText with
  | none => .error ()
  | some gt =>
    let guidNumber : String :=
      if '@' ∈ gt.data then String.mk (gt.data.takeWhile (fun c => !(c == '@')))
      else ""
    let eventUrl : String :=
      if guidNumber ≠ "" then
        "https://lsa.umich.edu/physics/news-events/all-events.detail.html/" ++
          guidNumber ++ ".html"
      else ""
    .ok {
      title := textOr "title" ch "Untitled"
      link := eventUrl
      guid := guidNumber
      description := textOr "description" ch ""
      category := textOr "category" ch ""
      pubDate := textOr "pubDate" ch ""
      startdate := textOr "ev:startdate" ch ""
      enddate := textOr "ev:enddate" ch ""
      location := textOr "ev:location" ch ""
      organizer := textOr "ev:organizer" ch ""
      event_type := textOr "ev:type" ch ""
      speaker := none
      detail_location := none
      youtube_link := none }

def itemsToRecords : List XmlElem → Except Unit (List ParsedItem)
  | [] => .ok []
  | i :: rest =>
    match buildItem i with
    | .error u => .error u
    | .ok r =>
      match itemsToRecords rest with
      | .error u => .error u
      | .ok rs => .ok (r :: rs)

/-- `parse_rss_feed` over the parsed tree: one record per `.//item`
descendant of the root, in document order. -/
def parse_rss_feed (root : XmlElem) : Except Unit (List ParsedItem) :=
  itemsToRecords (findAllTagL "item" root.children)

/-- The record a childless item yields. -/
def defaultParsedItem : ParsedItem :=
  { title := some "Untitled", link := "", guid := "",
    description := some "", category := some "", pubDate := some "",
    startdate := some "", enddate := some "", location := some "",
    organizer := some "", event_type := some "",
    speaker := none, detail_location := none, youtube_link := none }

theorem buildItem_childless (item : XmlElem)
    (h : item.children = XmlChildren.nil) :
    buildItem item = .ok defaultParsedItem := by
  cases item with
  | mk tag tx ch =>
    have hch : ch = XmlChildren.nil := h
    subst hch
    rfl

theorem itemsToRecords_default : ∀ (items : List XmlElem),
    (∀ i ∈ items, i.children = XmlChildren.nil) →
    itemsToRecords items = .ok (items.map (fun _ => defaultParsedItem)) := by
  intro items
  induction items with
  | nil => intro _; rfl
  | cons i rest ih =>
    intro h
    rw [itemsToRecords, buildItem_childless i (h i (List.mem_cons_self _ _)),
      ih (fun x hx => h x (List.mem_cons_of_mem _ hx))]
    rfl

/-- C10: parsing never fails on items lacking child elements: a childless
item yields the record with title `"Untitled"`, every other field the
empty string and the three enrichment fields absent; a feed whose items
are all childless parses without error to exactly those records. -/
theorem parse_rss_feed_defaults :
    (∀ item : XmlElem, item.children = XmlChildren.nil →
      buildItem item = .ok defaultParsedItem) ∧
    (∀ root : XmlElem,
      (∀ item ∈ findAllTagL "item" root.children, item.children = XmlChildren.nil) →
      parse_rss_feed root = .ok ((findAllTagL "item" root.children).map
        (fun _ => defaultParsedItem))) ∧
    defaultParsedItem.title = some "Untitled" ∧
    defaultParsedItem.link = "" ∧ defaultParsedItem.guid = "" ∧
    defaultParsedItem.description = some "" ∧
    defaultParsedItem.startdate = some "" ∧
    defaultParsedItem.speaker = none ∧
    defaultParsedItem.detail_location = none ∧
    defaultParsedItem.youtube_link = none := by
  refine ⟨buildItem_childless, ?_, rfl, rfl, rfl, rfl, rfl, rfl, rfl, rfl⟩
  intro root h
  rw [parse_rss_feed, itemsToRecords_default _ h]

end RssScraper
